import Mathlib

/-!
Verification of the prime-fix-md-go market-data core: the fixed-capacity
ring-buffer trade store (`TradeStore`), its subscription registry, and the
FIX repeating-group parser (`findEntryBoundaries`, `parseTradeFromSegmentFast`,
`parseTradeFromSegment`, `extractSingleFieldValue`).

Strings from the Go source are modelled as `List Char`; `time.Time` values are
modelled as abstract `Nat` clock readings passed in explicitly (the Go code
reads `time.Now()`; every such read becomes a parameter here).  Go's `nil`
slice results are modelled as `none`; a non-nil slice as `some`.
-/

set_option autoImplicit false

namespace PrimeFixMd

/-- Go strings, modelled character by character. -/
abbrev Str := List Char

/-- The FIX field delimiter SOH (ASCII 0x01). -/
def soh : Char := Char.ofNat 1

/-- `Trade` struct from the store (string fields as `Str`, `time.Time` as `Nat`). -/
structure Trade where
  Timestamp : Nat
  Symbol : Str
  Price : Str
  Size : Str
  Time : Str
  Aggressor : Str
  MdReqId : Str
  EntryType : Str
  Position : Str
  SeqNum : Str
  IsSnapshot : Bool
  IsUpdate : Bool
deriving Repr, DecidableEq, Inhabited

/-- The Go zero value of `Trade` (contents of the freshly `make`d backing array). -/
def zeroTrade : Trade :=
  { Timestamp := 0, Symbol := [], Price := [], Size := [], Time := [], Aggressor := []
    MdReqId := [], EntryType := [], Position := [], SeqNum := []
    IsSnapshot := false, IsUpdate := false }

/-- `Subscription` struct: metadata of one active market-data request. -/
structure Subscription where
  LastUpdate : Nat
  TotalUpdates : Int
  Symbol : Str
  SubscriptionType : Str
  MdReqId : Str
  Active : Bool
  SnapshotReceived : Bool
deriving Repr, DecidableEq, Inhabited

/-- `TradeStore`: ring buffer of trades plus the subscription registry.
The Go `map[string]*Subscription` is modelled as an association list with
at most one binding per key (all mutations below preserve that). -/
structure TradeStore where
  trades : List Trade
  head : Nat
  count : Nat
  subscriptions : List (Str × Subscription)
  updateCount : Int
  maxSize : Nat
deriving Repr, DecidableEq

/-- `NewTradeStore`: pre-allocates the backing array, empty registry. -/
def NewTradeStore (maxSize : Nat) : TradeStore :=
  { trades := List.replicate maxSize zeroTrade
    head := 0
    count := 0
    subscriptions := []
    updateCount := 0
    maxSize := maxSize }

/-- Map lookup (`ts.subscriptions[mdReqId]`). -/
def lookupSub : List (Str × Subscription) → Str → Option Subscription
  | [], _ => none
  | (k, v) :: rest, r => if k = r then some v else lookupSub rest r

/-- Map assignment (`ts.subscriptions[mdReqId] = sub`): replace the existing
binding or append a new one. -/
def setSub : List (Str × Subscription) → Str → Subscription → List (Str × Subscription)
  | [], r, s => [(r, s)]
  | (k, v) :: rest, r, s => if k = r then (k, s) :: rest else (k, v) :: setSub rest r s

/-- The subscription-metadata update at the top of `AddTrades`:
if the request id is registered, bump `LastUpdate`/`TotalUpdates` and latch
`SnapshotReceived` when the batch is a snapshot; otherwise no-op. -/
def updateSubOnAdd (subs : List (Str × Subscription)) (mdReqId : Str) (numTrades : Nat)
    (isSnapshot : Bool) (now : Nat) : List (Str × Subscription) :=
  match lookupSub subs mdReqId with
  | none => subs
  | some sub =>
      setSub subs mdReqId
        { sub with
          LastUpdate := now
          TotalUpdates := sub.TotalUpdates + (numTrades : Int)
          SnapshotReceived := if isSnapshot then true else sub.SnapshotReceived }

/-- The per-trade field stamping inside the `AddTrades` loop. -/
def stampTrade (trade : Trade) (symbol mdReqId : Str) (isSnapshot : Bool) (now : Nat) : Trade :=
  { trade with
    Timestamp := now
    Symbol := symbol
    MdReqId := mdReqId
    IsSnapshot := isSnapshot
    IsUpdate := !isSnapshot }

/-- One iteration of the `AddTrades` ring-buffer insertion:
write at `(head + count) % maxSize`, then either grow `count` or advance `head`. -/
def insertOne (ts : TradeStore) (trade : Trade) : TradeStore :=
  let writeIdx := (ts.head + ts.count) % ts.maxSize
  let newTrades := ts.trades.set writeIdx trade
  if ts.count < ts.maxSize then
    { ts with trades := newTrades, count := ts.count + 1, updateCount := ts.updateCount + 1 }
  else
    { ts with
      trades := newTrades
      head := (ts.head + 1) % ts.maxSize
      updateCount := ts.updateCount + 1 }

/-- `TradeStore.AddTrades`: update subscription metadata, then stamp and insert
every trade of the batch in order, with a single shared clock reading `now`. -/
def AddTrades (ts : TradeStore) (symbol : Str) (trades : List Trade) (isSnapshot : Bool)
    (mdReqId : Str) (now : Nat) : TradeStore :=
  let ts1 := { ts with
    subscriptions := updateSubOnAdd ts.subscriptions mdReqId trades.length isSnapshot now }
  trades.foldl (fun s tr => insertOne s (stampTrade tr symbol mdReqId isSnapshot now)) ts1

/-- Read of `ts.trades[idx]` (in well-formed states the index is in bounds). -/
def tradeAt (ts : TradeStore) (idx : Nat) : Trade :=
  ts.trades.getD idx zeroTrade

/-- The first pass of `GetRecentTrades`: count matches scanning newest to
oldest, stopping once `limit` matches are found.  `r` is the number of loop
iterations left (the loop variable is `i = ts.count - r`), `mc` the running
match count. -/
def scanCount (ts : TradeStore) (symbol : Str) (limit : Nat) : Nat → Nat → Nat
  | 0, mc => mc
  | r + 1, mc =>
      if mc < limit then
        let i := ts.count - (r + 1)
        let idx := (ts.head + ts.count - 1 - i) % ts.maxSize
        scanCount ts symbol limit r (if (tradeAt ts idx).Symbol = symbol then mc + 1 else mc)
      else mc

/-- The second pass of `GetRecentTrades`: fill the pre-sized result backward.
`left` is `resultIdx + 1`, so the Go condition `resultIdx >= 0` reads `left ≠ 0`. -/
def fillPass (ts : TradeStore) (symbol : Str) : Nat → Nat → List Trade → List Trade
  | 0, _, acc => acc
  | r + 1, left, acc =>
      if left = 0 then acc
      else
        let i := ts.count - (r + 1)
        let idx := (ts.head + ts.count - 1 - i) % ts.maxSize
        if (tradeAt ts idx).Symbol = symbol then
          fillPass ts symbol r (left - 1) (acc.set (left - 1) (tradeAt ts idx))
        else
          fillPass ts symbol r left acc

/-- `TradeStore.GetRecentTrades`: two-pass retrieval of the most recent trades
for a symbol, oldest first.  Go's `nil` returns become `none`. -/
def GetRecentTrades (ts : TradeStore) (symbol : Str) (limit : Nat) : Option (List Trade) :=
  if ts.count = 0 then none
  else
    let matchCount := scanCount ts symbol limit ts.count 0
    if matchCount = 0 then none
    else some (fillPass ts symbol ts.count matchCount (List.replicate matchCount zeroTrade))

/-- `TradeStore.GetAllTrades`: all live trades, oldest first; `nil` becomes `none`. -/
def GetAllTrades (ts : TradeStore) : Option (List Trade) :=
  if ts.count = 0 then none
  else some ((List.range ts.count).map fun i => tradeAt ts ((ts.head + i) % ts.maxSize))

/-- `TradeStore.AddSubscription`: unconditionally installs a fresh subscription
under the request id. -/
def AddSubscription (ts : TradeStore) (symbol subscriptionType mdReqId : Str) (now : Nat) :
    TradeStore :=
  { ts with
    subscriptions := setSub ts.subscriptions mdReqId
      { LastUpdate := now
        TotalUpdates := 0
        Symbol := symbol
        SubscriptionType := subscriptionType
        MdReqId := mdReqId
        Active := true
        SnapshotReceived := false } }

/-- The live contents of the ring, oldest first: slot `(head + i) % maxSize`
for `i < count`.  This is the abstraction the store invariants are stated on. -/
def liveList (ts : TradeStore) : List Trade :=
  (List.range ts.count).map fun i => tradeAt ts ((ts.head + i) % ts.maxSize)

/-- Well-formedness of a store state (holds in every reachable state). -/
def WFStore (ts : TradeStore) : Prop :=
  ts.trades.length = ts.maxSize ∧ 1 ≤ ts.maxSize ∧ ts.count ≤ ts.maxSize ∧ ts.head < ts.maxSize

instance (ts : TradeStore) : Decidable (WFStore ts) := by
  unfold WFStore; infer_instance

/-- One recorded `AddTrades` call (its clock reading made explicit). -/
structure BatchCall where
  symbol : Str
  trades : List Trade
  isSnapshot : Bool
  mdReqId : Str
  now : Nat
deriving Repr, DecidableEq

/-- Apply a sequence of `AddTrades` calls in order. -/
def applyBatches : TradeStore → List BatchCall → TradeStore
  | ts, [] => ts
  | ts, c :: cs => applyBatches (AddTrades ts c.symbol c.trades c.isSnapshot c.mdReqId c.now) cs

/-- The records one `AddTrades` call writes into the ring, in order. -/
def stampedBatch (c : BatchCall) : List Trade :=
  c.trades.map fun tr => stampTrade tr c.symbol c.mdReqId c.isSnapshot c.now

/-- All records written by a sequence of calls, in write order. -/
def allStamped (calls : List BatchCall) : List Trade :=
  (calls.map stampedBatch).flatten

/-! ### The parser (part_002 and display.go) -/

/-- `strings.IndexByte`: index of the first occurrence of `c`, `none` for Go's `-1`. -/
def findCharIdx (c : Char) : Str → Option Nat
  | [] => none
  | x :: rest => if x = c then some 0 else (findCharIdx c rest).map (· + 1)

/-- Whether `pat` is an initial run of `s` (an occurrence of `pat` at offset 0). -/
def matchesAt : Str → Str → Bool
  | [], _ => true
  | _ :: _, [] => false
  | c :: ps, d :: ss => c = d && matchesAt ps ss

/-- `strings.Index`: offset of the first occurrence of `pat` in `s`, `none` for `-1`. -/
def strIndex : Str → Str → Option Nat
  | [], pat => if pat = [] then some 0 else none
  | c :: rest, pat =>
      if matchesAt pat (c :: rest) then some 0 else (strIndex rest pat).map (· + 1)

/-- `getAggressorSideDesc` (display.go): maps side code 1/2 to Buy/Sell,
anything else passes through. -/
def getAggressorSideDesc (side : Str) : Str :=
  if side = "1".toList then "Buy".toList
  else if side = "2".toList then "Sell".toList
  else side

/-- The `switch tag` dispatch in the body of `parseTradeFromSegmentFast`'s loop. -/
def applyTag (trade : Trade) (tag value : Str) : Trade :=
  if tag = "269".toList then { trade with EntryType := value }
  else if tag = "270".toList then { trade with Price := value }
  else if tag = "271".toList then { trade with Size := value }
  else if tag = "273".toList then { trade with Time := value }
  else if tag = "290".toList then { trade with Position := value }
  else if tag = "2446".toList then { trade with Aggressor := getAggressorSideDesc value }
  else trade

/-- The `Trade{...}` literal both parsers start from. -/
def initTrade (symbol mdReqId : Str) (isSnapshot : Bool) (seqNum : Str) (timestamp : Nat) :
    Trade :=
  { zeroTrade with
    Timestamp := timestamp
    Symbol := symbol
    MdReqId := mdReqId
    IsSnapshot := isSnapshot
    IsUpdate := !isSnapshot
    SeqNum := seqNum }

/-- The single-pass scan loop of `parseTradeFromSegmentFast`: repeatedly split
the remaining suffix at the next `=` (tag) and the next SOH (value), dispatch
on the tag, and continue past the delimiter; stop when no `=` remains, and
treat a value with no trailing SOH as running to the end of the segment. -/
def parseLoop (trade : Trade) (s : Str) : Trade :=
  match h : findCharIdx '=' s with
  | none => trade
  | some eqIdx =>
      let tag := s.take eqIdx
      let rest := s.drop (eqIdx + 1)
      match findCharIdx soh rest with
      | none => applyTag trade tag rest
      | some sohIdx => parseLoop (applyTag trade tag (rest.take sohIdx)) (rest.drop (sohIdx + 1))
termination_by s.length
decreasing_by
  have key : ∀ (t : Str) (i : Nat), findCharIdx '=' t = some i → i < t.length := by
    intro t
    induction t with
    | nil => intro i hi; simp [findCharIdx] at hi
    | cons x xs ih =>
        intro i hi
        by_cases hx : x = '='
        · simp [findCharIdx, hx] at hi
          simp only [List.length_cons]
          omega
        · simp [findCharIdx, hx] at hi
          obtain ⟨j, hj, rfl⟩ := hi
          have := ih j hj
          simp only [List.length_cons]
          omega
  have := key s eqIdx h
  simp only [List.length_drop]
  omega

/-- `FixApp.parseTradeFromSegmentFast`: single-pass entry parser, with the
default-position rule for bids and offers applied after the scan. -/
def parseTradeFromSegmentFast (segment symbol mdReqId : Str) (isSnapshot : Bool)
    (seqNum : Str) (entryIndex : Nat) (timestamp : Nat) : Trade :=
  let trade := parseLoop (initTrade symbol mdReqId isSnapshot seqNum timestamp) segment
  if trade.Position = [] ∧ (trade.EntryType = "0".toList ∨ trade.EntryType = "1".toList) then
    { trade with Position := Nat.toDigits 10 (entryIndex + 1) }
  else trade

/-- `extractSingleFieldValue`: value of the first occurrence of `tagPat`,
bounded by the next SOH or the end of the segment; `""` when absent. -/
def extractSingleFieldValue (fixSegment tagPat : Str) : Str :=
  match strIndex fixSegment tagPat with
  | none => []
  | some i =>
      let start := i + tagPat.length
      match strIndex (fixSegment.drop start) [soh] with
      | none => fixSegment.drop start
      | some e => (fixSegment.drop start).take e

/-- `FixApp.parseTradeFromSegment`: the retained multi-pass reference parser
(six independent `extractSingleFieldValue` lookups).  Its own `time.Now()`
read is the explicit `timestamp` parameter. -/
def parseTradeFromSegment (segment symbol mdReqId : Str) (isSnapshot : Bool)
    (seqNum : Str) (entryIndex : Nat) (timestamp : Nat) : Trade :=
  let trade := initTrade symbol mdReqId isSnapshot seqNum timestamp
  let entryType := extractSingleFieldValue segment "269=".toList
  let trade := if entryType ≠ [] then { trade with EntryType := entryType } else trade
  let price := extractSingleFieldValue segment "270=".toList
  let trade := if price ≠ [] then { trade with Price := price } else trade
  let sizeVal := extractSingleFieldValue segment "271=".toList
  let trade := if sizeVal ≠ [] then { trade with Size := sizeVal } else trade
  let timeVal := extractSingleFieldValue segment "273=".toList
  let trade := if timeVal ≠ [] then { trade with Time := timeVal } else trade
  let position := extractSingleFieldValue segment "290=".toList
  let trade :=
    if position ≠ [] then { trade with Position := position }
    else if trade.EntryType = "0".toList ∨ trade.EntryType = "1".toList then
      { trade with Position := Nat.toDigits 10 (entryIndex + 1) }
    else trade
  let aggressor := extractSingleFieldValue segment "2446=".toList
  let trade :=
    if aggressor ≠ [] then { trade with Aggressor := getAggressorSideDesc aggressor }
    else trade
  trade

/-- The repeating-group start marker `"269="`. -/
def mdMarker : Str := "269=".toList

/-- `strings.Count`: number of non-overlapping occurrences of `pat` in `s`
(for the empty pattern, Go returns `1 + the rune length`). -/
def countOccur (pat : Str) (s : Str) : Nat :=
  if hp : pat = [] then s.length + 1
  else
    match h : strIndex s pat with
    | none => 0
    | some i => 1 + countOccur pat (s.drop (i + pat.length))
termination_by s.length
decreasing_by
  have hm : ∀ (q t : Str), matchesAt q t = true → q.length ≤ t.length := by
    intro q
    induction q with
    | nil => intro t _; simp
    | cons c ps ih =>
        intro t ht
        cases t with
        | nil => simp [matchesAt] at ht
        | cons d ss =>
            simp only [matchesAt, Bool.and_eq_true] at ht
            have := ih ss ht.2
            simp; omega
  have hkey : ∀ (t q : Str) (i : Nat), strIndex t q = some i → i + q.length ≤ t.length := by
    intro t
    induction t with
    | nil =>
        intro q i hi
        by_cases hq : q = [] <;> simp [strIndex, hq] at hi
        simp [hq, hi.symm]
    | cons c rest ih =>
        intro q i hi
        by_cases hmt : matchesAt q (c :: rest) = true
        · simp [strIndex, hmt] at hi
          have := hm q (c :: rest) hmt
          simp at this ⊢; omega
        · simp [strIndex, hmt] at hi
          obtain ⟨j, hj, rfl⟩ := hi
          have := ih q j hj
          simp; omega
  have hb := hkey s pat i h
  have hl : 1 ≤ pat.length := by
    cases pat with
    | nil => exact absurd rfl hp
    | cons a b => simp
  simp only [List.length_drop]
  omega

/-- The collection loop of `findEntryBoundaries`: `s` is the suffix
`rawMsg[base:]`; each found offset is reported relative to the whole message
and the cursor is advanced past the 4-byte marker. -/
def collectEntryStarts (s : Str) (base : Nat) : List Nat :=
  match h : strIndex s mdMarker with
  | none => []
  | some pos => (base + pos) :: collectEntryStarts (s.drop (pos + 4)) (base + pos + 4)
termination_by s.length
decreasing_by
  have hm : ∀ (q t : Str), matchesAt q t = true → q.length ≤ t.length := by
    intro q
    induction q with
    | nil => intro t _; simp
    | cons c ps ih =>
        intro t ht
        cases t with
        | nil => simp [matchesAt] at ht
        | cons d ss =>
            simp only [matchesAt, Bool.and_eq_true] at ht
            have := ih ss ht.2
            simp; omega
  have hkey : ∀ (t q : Str) (i : Nat), strIndex t q = some i → i + q.length ≤ t.length := by
    intro t
    induction t with
    | nil =>
        intro q i hi
        by_cases hq : q = [] <;> simp [strIndex, hq] at hi
        simp [hq, hi.symm]
    | cons c rest ih =>
        intro q i hi
        by_cases hmt : matchesAt q (c :: rest) = true
        · simp [strIndex, hmt] at hi
          have := hm q (c :: rest) hmt
          simp at this ⊢; omega
        · simp [strIndex, hmt] at hi
          obtain ⟨j, hj, rfl⟩ := hi
          have := ih q j hj
          simp; omega
  have hb := hkey s mdMarker pos h
  have h4 : mdMarker.length = 4 := rfl
  simp only [List.length_drop]
  omega

/-- `FixApp.findEntryBoundaries`: counting pre-pass, then offset collection.
Go's `nil` result for zero occurrences is the empty list. -/
def findEntryBoundaries (rawMsg : Str) : List Nat :=
  if countOccur mdMarker rawMsg = 0 then [] else collectEntryStarts rawMsg 0

/-! ### Specification-side definitions used to state and settle the claims -/

/-- A trade with its store-stamped timestamp normalised away, for comparing
parser outputs "on every field except Timestamp". -/
def clearStamp (t : Trade) : Trade := { t with Timestamp := 0 }

/-- One `TAG=VALUE<SOH>` field as (tag, value). -/
def renderField (f : Str × Str) : Str := f.1 ++ '=' :: (f.2 ++ [soh])

/-- A segment assembled from a list of fields. -/
def renderFields (fs : List (Str × Str)) : Str := (fs.map renderField).flatten

/-- The six tags both parsers recognise. -/
def knownTags : List Str :=
  ["269".toList, "270".toList, "271".toList, "273".toList, "290".toList, "2446".toList]

/-- Value of the first field carrying tag `t`. -/
def firstTagVal (t : Str) : List (Str × Str) → Option Str
  | [] => none
  | f :: fs => if f.1 = t then some f.2 else firstTagVal t fs

/-- Value of the last field carrying tag `t` (what a left-to-right
last-write-wins scan retains). -/
def lastTagVal (t : Str) : List (Str × Str) → Option Str
  | [] => none
  | f :: fs =>
      match lastTagVal t fs with
      | some v => some v
      | none => if f.1 = t then some f.2 else none

/-- Well-formed field lists: tags and values are free of `=` and SOH, each
recognised tag occurs on at most one field, and no recognised tag is a proper
suffix of any field's tag.  On segments rendered from such lists the two
parsers coincide (outside them they can differ; see the counterexample). -/
def wfFields (fs : List (Str × Str)) : Prop :=
  (∀ f ∈ fs, '=' ∉ f.1 ∧ soh ∉ f.1 ∧ '=' ∉ f.2 ∧ soh ∉ f.2) ∧
  (∀ t ∈ knownTags, (fs.filter (fun f => f.1 = t)).length ≤ 1) ∧
  (∀ f ∈ fs, ∀ t ∈ knownTags, t.length ≤ f.1.length →
    f.1.drop (f.1.length - t.length) = t → f.1 = t)

instance (fs : List (Str × Str)) : Decidable (wfFields fs) := by
  unfold wfFields; infer_instance

/-- The value the parsers retain for tag `t` on a well-formed segment: the
unique field's value, or empty when the tag is absent. -/
def tagVal (t : Str) (fs : List (Str × Str)) : Str :=
  match firstTagVal t fs with
  | some v => v
  | none => []

/-- Common normal form of both parsers on a rendered well-formed segment. -/
def canonParse (fs : List (Str × Str)) (symbol mdReqId : Str) (isSnapshot : Bool)
    (seqNum : Str) (entryIndex : Nat) : Trade :=
  { Timestamp := 0
    Symbol := symbol
    Price := tagVal "270".toList fs
    Size := tagVal "271".toList fs
    Time := tagVal "273".toList fs
    Aggressor :=
      match firstTagVal "2446".toList fs with
      | some v => getAggressorSideDesc v
      | none => []
    MdReqId := mdReqId
    EntryType := tagVal "269".toList fs
    Position :=
      if tagVal "290".toList fs = [] then
        if tagVal "269".toList fs = "0".toList ∨ tagVal "269".toList fs = "1".toList then
          Nat.toDigits 10 (entryIndex + 1)
        else []
      else tagVal "290".toList fs
    SeqNum := seqNum
    IsSnapshot := isSnapshot
    IsUpdate := !isSnapshot }

/-- Reference form of `GetRecentTrades`'s first pass: scan a (newest-first)
list, counting matches but stopping at `limit`. -/
def cappedCount (symbol : Str) (limit : Nat) : List Trade → Nat → Nat
  | [], mc => mc
  | t :: rest, mc =>
      if mc < limit then
        cappedCount symbol limit rest (if t.Symbol = symbol then mc + 1 else mc)
      else mc

/-- Reference form of the second pass's match selection: the first `n` matches
of a (newest-first) list. -/
def firstMatches (symbol : Str) : Nat → List Trade → List Trade
  | _, [] => []
  | 0, _ => []
  | n + 1, t :: rest =>
      if t.Symbol = symbol then t :: firstMatches symbol n rest
      else firstMatches symbol (n + 1) rest

/-- Reference form of the second pass's array fill: walk the (newest-first)
list, writing each match at slot `left - 1` and decrementing. -/
def fillList (symbol : Str) : List Trade → Nat → List Trade → List Trade
  | [], _, acc => acc
  | t :: rest, left, acc =>
      if left = 0 then acc
      else if t.Symbol = symbol then fillList symbol rest (left - 1) (acc.set (left - 1) t)
      else fillList symbol rest left acc

/-! ### Generic list helpers -/

theorem getD_set_self {α : Type} {l : List α} {i : Nat} {x d : α} (h : i < l.length) :
    (l.set i x).getD i d = x := by
  simp [List.getD_eq_getElem?_getD, List.getElem?_set, h]

theorem getD_set_ne {α : Type} {l : List α} {i j : Nat} {x d : α} (h : i ≠ j) :
    (l.set i x).getD j d = l.getD j d := by
  simp [List.getD_eq_getElem?_getD, List.getElem?_set, h]

/-- Ring-buffer slot indices are injective on a window of size `C`. -/
theorem ringIdx_inj {C h i j : Nat} (hi : i < C) (hj : j < C)
    (hmod : (h + i) % C = (h + j) % C) : i = j := by
  have h1 : i ≡ j [MOD C] := Nat.ModEq.add_left_cancel' h hmod
  have h2 : i % C = j % C := h1
  rwa [Nat.mod_eq_of_lt hi, Nat.mod_eq_of_lt hj] at h2

/-! ### Ring-buffer invariants (C1 groundwork) -/

theorem liveList_length (ts : TradeStore) : (liveList ts).length = ts.count := by
  simp [liveList]

theorem liveList_getElem? (ts : TradeStore) {i : Nat} (hi : i < ts.count) :
    (liveList ts)[i]? = some (tradeAt ts ((ts.head + i) % ts.maxSize)) := by
  simp [liveList, List.getElem?_map, List.getElem?_range hi]

theorem insertOne_fields (ts : TradeStore) (tr : Trade) :
    (insertOne ts tr).maxSize = ts.maxSize ∧
    (insertOne ts tr).subscriptions = ts.subscriptions ∧
    (insertOne ts tr).trades = ts.trades.set ((ts.head + ts.count) % ts.maxSize) tr ∧
    (insertOne ts tr).head =
      (if ts.count < ts.maxSize then ts.head else (ts.head + 1) % ts.maxSize) ∧
    (insertOne ts tr).count = (if ts.count < ts.maxSize then ts.count + 1 else ts.count) := by
  unfold insertOne
  split <;> simp_all

theorem WFStore_insertOne {ts : TradeStore} (tr : Trade) (hwf : WFStore ts) :
    WFStore (insertOne ts tr) := by
  obtain ⟨hlen, hC, hcnt, hhead⟩ := hwf
  obtain ⟨h1, _, h3, h4, h5⟩ := insertOne_fields ts tr
  refine ⟨?_, ?_, ?_, ?_⟩ <;> rw [h1] <;> first
    | (rw [h3]; simp [List.length_set, hlen])
    | skip
  · exact hC
  · rw [h5]; split <;> omega
  · rw [h4]; split
    · exact hhead
    · exact Nat.mod_lt _ (by omega)

theorem insertOne_count {ts : TradeStore} (tr : Trade) (hwf : WFStore ts) :
    (insertOne ts tr).count = min (ts.count + 1) ts.maxSize := by
  obtain ⟨hlen, hC, hcnt, hhead⟩ := hwf
  obtain ⟨_, _, _, _, h5⟩ := insertOne_fields ts tr
  rw [h5]; split <;> omega

theorem liveList_insertOne {ts : TradeStore} (tr : Trade) (hwf : WFStore ts) :
    liveList (insertOne ts tr) = (liveList ts ++ [tr]).drop (ts.count + 1 - ts.maxSize) := by
  obtain ⟨hlen, hC, hcnt, hhead⟩ := hwf
  obtain ⟨h1, _, h3, h4, h5⟩ := insertOne_fields ts tr
  have hwlt : (ts.head + ts.count) % ts.maxSize < ts.trades.length := by
    rw [hlen]; exact Nat.mod_lt _ (by omega)
  by_cases hfull : ts.count < ts.maxSize
  · have hdrop : ts.count + 1 - ts.maxSize = 0 := by omega
    rw [hdrop, List.drop_zero]
    unfold liveList tradeAt
    rw [h1, h3, h4, h5]
    simp only [if_pos hfull]
    rw [List.range_succ, List.map_append, List.map_singleton]
    congr 1
    · apply List.map_congr_left
      intro i hi
      have hi' : i < ts.count := List.mem_range.mp hi
      apply getD_set_ne
      intro hcontra
      have : ts.count = i :=
        ringIdx_inj (show ts.count < ts.maxSize from hfull) (show i < ts.maxSize by omega)
          hcontra
      omega
    · rw [getD_set_self hwlt]
  · have hcntC : ts.count = ts.maxSize := by omega
    have hdrop : ts.count + 1 - ts.maxSize = 1 := by omega
    have hw : (ts.head + ts.count) % ts.maxSize = ts.head := by
      rw [hcntC, Nat.add_mod_right]; exact Nat.mod_eq_of_lt hhead
    obtain ⟨m, hm⟩ : ∃ m, ts.count = m + 1 := ⟨ts.count - 1, by omega⟩
    rw [hdrop]
    unfold liveList tradeAt
    rw [h1, h3, h4, h5]
    simp only [if_neg hfull]
    rw [hw, hm]
    nth_rewrite 2 [List.range_succ_eq_map]
    rw [List.range_succ, List.map_append, List.map_singleton, List.map_cons, List.map_map]
    have hg0 : (ts.head + 0) % ts.maxSize = ts.head := by
      rw [Nat.add_zero]; exact Nat.mod_eq_of_lt hhead
    rw [List.cons_append, List.drop_one, List.tail_cons]
    congr 1
    · apply List.map_congr_left
      intro i hi
      have hi' : i < m := List.mem_range.mp hi
      have hidx : ((ts.head + 1) % ts.maxSize + i) % ts.maxSize
          = (ts.head + (i + 1)) % ts.maxSize := by
        rw [Nat.mod_add_mod]; congr 1; omega
      rw [hidx]
      simp only [Function.comp, Nat.succ_eq_add_one]
      apply getD_set_ne
      intro hcontra
      have hcontra2 : (ts.head + 0) % ts.maxSize = (ts.head + (i + 1)) % ts.maxSize := by
        rw [hg0]; exact hcontra
      have : 0 = i + 1 :=
        ringIdx_inj (show 0 < ts.maxSize by omega) (show i + 1 < ts.maxSize by omega) hcontra2
      omega
    · have hidx : ((ts.head + 1) % ts.maxSize + m) % ts.maxSize = ts.head := by
        rw [Nat.mod_add_mod]
        have he : ts.head + 1 + m = ts.head + ts.maxSize := by omega
        rw [he, Nat.add_mod_right]
        exact Nat.mod_eq_of_lt hhead
      rw [hidx, getD_set_self (show ts.head < ts.trades.length by omega)]

theorem drop_append_of_le {α : Type} {l₁ l₂ : List α} {n : Nat} (h : n ≤ l₁.length) :
    (l₁ ++ l₂).drop n = l₁.drop n ++ l₂ := by
  rw [List.drop_append_eq_append_drop, Nat.sub_eq_zero_of_le h, List.drop_zero]

theorem foldl_insertOne_spec (rs : List Trade) :
    ∀ ts : TradeStore, WFStore ts →
      WFStore (rs.foldl insertOne ts) ∧
      (rs.foldl insertOne ts).maxSize = ts.maxSize ∧
      (rs.foldl insertOne ts).subscriptions = ts.subscriptions ∧
      (rs.foldl insertOne ts).count = min (ts.count + rs.length) ts.maxSize ∧
      liveList (rs.foldl insertOne ts) =
        (liveList ts ++ rs).drop (ts.count + rs.length - ts.maxSize) := by
  induction rs with
  | nil =>
      intro ts hwf
      obtain ⟨hlen, hC, hcnt, hhead⟩ := hwf
      refine ⟨⟨hlen, hC, hcnt, hhead⟩, rfl, rfl, ?_, ?_⟩
      · simp only [List.foldl_nil, List.length_nil]; omega
      · simp only [List.foldl_nil, List.length_nil, List.append_nil, Nat.add_zero,
          Nat.sub_eq_zero_of_le hcnt, List.drop_zero]
  | cons r rs ih =>
      intro ts hwf
      have hwf1 := WFStore_insertOne r hwf
      obtain ⟨ihwf, ihmax, ihsubs, ihcount, ihlive⟩ := ih (insertOne ts r) hwf1
      obtain ⟨e1, e2, _, _, _⟩ := insertOne_fields ts r
      obtain ⟨hlen, hC, hcnt, hhead⟩ := hwf
      have hcount1 := insertOne_count r ⟨hlen, hC, hcnt, hhead⟩
      have hlive1 := liveList_insertOne r ⟨hlen, hC, hcnt, hhead⟩
      rw [List.foldl_cons]
      refine ⟨ihwf, by rw [ihmax, e1], by rw [ihsubs, e2], ?_, ?_⟩
      · rw [ihcount, e1, hcount1]
        simp only [List.length_cons]
        omega
      · rw [ihlive, e1, hcount1, hlive1,
          ← drop_append_of_le
            (show ts.count + 1 - ts.maxSize ≤ (liveList ts ++ [r]).length by
              simp only [List.length_append, liveList_length, List.length_singleton]
              omega),
          List.drop_drop, List.append_assoc, List.singleton_append]
        congr 1
        simp only [List.length_cons]
        omega

theorem AddTrades_spec (ts : TradeStore) (symbol : Str) (trades : List Trade)
    (isSnapshot : Bool) (mdReqId : Str) (now : Nat) (hwf : WFStore ts) :
    WFStore (AddTrades ts symbol trades isSnapshot mdReqId now) ∧
    (AddTrades ts symbol trades isSnapshot mdReqId now).maxSize = ts.maxSize ∧
    (AddTrades ts symbol trades isSnapshot mdReqId now).subscriptions =
      updateSubOnAdd ts.subscriptions mdReqId trades.length isSnapshot now ∧
    (AddTrades ts symbol trades isSnapshot mdReqId now).count =
      min (ts.count + trades.length) ts.maxSize ∧
    liveList (AddTrades ts symbol trades isSnapshot mdReqId now) =
      (liveList ts ++ trades.map fun tr => stampTrade tr symbol mdReqId isSnapshot now).drop
        (ts.count + trades.length - ts.maxSize) := by
  unfold AddTrades
  have hfold := (List.foldl_map (fun tr => stampTrade tr symbol mdReqId isSnapshot now) insertOne trades { ts with subscriptions := updateSubOnAdd ts.subscriptions mdReqId trades.length isSnapshot now }).symm
  rw [hfold]
  have hwf1 : WFStore { ts with subscriptions := updateSubOnAdd ts.subscriptions mdReqId trades.length isSnapshot now } := hwf
  obtain ⟨s1, s2, s3, s4, s5⟩ :=
    foldl_insertOne_spec (trades.map fun tr => stampTrade tr symbol mdReqId isSnapshot now)
      _ hwf1
  refine ⟨s1, by rw [s2], by rw [s3], ?_, ?_⟩
  · rw [s4]; simp only [List.length_map]
  · rw [s5]; simp only [List.length_map]; rfl

theorem applyBatches_spec (calls : List BatchCall) :
    ∀ ts : TradeStore, WFStore ts →
      WFStore (applyBatches ts calls) ∧
      (applyBatches ts calls).maxSize = ts.maxSize ∧
      (applyBatches ts calls).count = min (ts.count + (allStamped calls).length) ts.maxSize ∧
      liveList (applyBatches ts calls) =
        (liveList ts ++ allStamped calls).drop
          (ts.count + (allStamped calls).length - ts.maxSize) := by
  induction calls with
  | nil =>
      intro ts hwf
      obtain ⟨hlen, hC, hcnt, hhead⟩ := hwf
      refine ⟨⟨hlen, hC, hcnt, hhead⟩, rfl, ?_, ?_⟩
      · simp only [applyBatches, allStamped, List.map_nil, List.flatten_nil, List.length_nil]
        omega
      · simp only [applyBatches, allStamped, List.map_nil, List.flatten_nil, List.length_nil,
          List.append_nil, Nat.add_zero, Nat.sub_eq_zero_of_le hcnt, List.drop_zero]
  | cons c cs ih =>
      intro ts hwf
      obtain ⟨a1, a2, a3, a4, a5⟩ :=
        AddTrades_spec ts c.symbol c.trades c.isSnapshot c.mdReqId c.now hwf
      obtain ⟨ihwf, ihmax, ihcount, ihlive⟩ :=
        ih (AddTrades ts c.symbol c.trades c.isSnapshot c.mdReqId c.now) a1
      obtain ⟨hlen, hC, hcnt, hhead⟩ := hwf
      have hall : allStamped (c :: cs) = stampedBatch c ++ allStamped cs := by
        simp [allStamped]
      have hsb : stampedBatch c =
          c.trades.map fun tr => stampTrade tr c.symbol c.mdReqId c.isSnapshot c.now := rfl
      refine ⟨ihwf, by exact ihmax.trans a2, ?_, ?_⟩
      · rw [show applyBatches ts (c :: cs) =
            applyBatches (AddTrades ts c.symbol c.trades c.isSnapshot c.mdReqId c.now) cs
            from rfl, ihcount, a2, a4, hall]
        simp only [List.length_append, hsb, List.length_map]
        omega
      · rw [show applyBatches ts (c :: cs) =
            applyBatches (AddTrades ts c.symbol c.trades c.isSnapshot c.mdReqId c.now) cs
            from rfl, ihlive, a2, a4, a5, hall, ← hsb,
          ← drop_append_of_le
            (show ts.count + c.trades.length - ts.maxSize ≤
                (liveList ts ++ stampedBatch c).length by
              simp only [List.length_append, liveList_length, hsb, List.length_map]
              omega),
          List.drop_drop, List.append_assoc]
        congr 1
        simp only [List.length_append, hsb, List.length_map]
        omega

theorem WFStore_new {C : Nat} (hC : 1 ≤ C) : WFStore (NewTradeStore C) := by
  refine ⟨?_, hC, ?_, ?_⟩ <;> simp [NewTradeStore] <;> omega

theorem liveList_new (C : Nat) : liveList (NewTradeStore C) = [] := by
  simp [liveList, NewTradeStore]

/-- C1: for a ring-buffer store of capacity `C ≥ 1`, after any sequence of
`AddTrades` calls starting from a new store, the live count equals
`min (total records inserted) C` and so never exceeds `C`; the live contents
are exactly the most recent `min (total, C)` stamped records in insertion
order (so one batch of `N > C` records into an empty store leaves exactly the
batch's last `C` records in order); and once `count = C`, every further
record written advances `head` by one modulo `C` and evicts exactly the
single oldest record. -/
theorem ringBufferCapacityEviction (C : Nat) (hC : 1 ≤ C) (calls : List BatchCall) :
    (applyBatches (NewTradeStore C) calls).count = min (allStamped calls).length C ∧
    (applyBatches (NewTradeStore C) calls).count ≤ C ∧
    liveList (applyBatches (NewTradeStore C) calls) =
      (allStamped calls).drop ((allStamped calls).length - C) ∧
    ∀ tr : Trade, (applyBatches (NewTradeStore C) calls).count = C →
      (insertOne (applyBatches (NewTradeStore C) calls) tr).head =
        ((applyBatches (NewTradeStore C) calls).head + 1) % C ∧
      liveList (insertOne (applyBatches (NewTradeStore C) calls) tr) =
        (liveList (applyBatches (NewTradeStore C) calls)).drop 1 ++ [tr] := by
  obtain ⟨w1, w2, w3, w4⟩ := applyBatches_spec calls (NewTradeStore C) (WFStore_new hC)
  have hmax0 : (NewTradeStore C).maxSize = C := rfl
  have hcnt0 : (NewTradeStore C).count = 0 := rfl
  rw [hmax0, hcnt0, Nat.zero_add] at w3
  rw [hmax0, hcnt0, Nat.zero_add, liveList_new, List.nil_append] at w4
  refine ⟨w3, ?_, w4, ?_⟩
  · rw [w3]; exact Nat.min_le_right _ _
  · intro tr hfullc
    obtain ⟨g1, g2, g3, g4, g5⟩ :=
      insertOne_fields (applyBatches (NewTradeStore C) calls) tr
    have hmaxC : (applyBatches (NewTradeStore C) calls).maxSize = C := by rw [w2, hmax0]
    constructor
    · rw [g4, hmaxC, hfullc, if_neg (lt_irrefl C)]
    · rw [liveList_insertOne tr w1, hmaxC, hfullc,
        show C + 1 - C = 1 by omega,
        drop_append_of_le (by rw [liveList_length, hfullc]; omega)]

/-- Witness for C1: capacity 3, one batch of five records with prices
100..500; the store retains exactly the last three, in order. -/
theorem ringBufferCapacityEviction_witness :
    (1 ≤ 3 ∧
      liveList (applyBatches (NewTradeStore 3)
          [⟨"BTC".toList,
            [{ zeroTrade with Price := "100".toList },
             { zeroTrade with Price := "200".toList },
             { zeroTrade with Price := "300".toList },
             { zeroTrade with Price := "400".toList },
             { zeroTrade with Price := "500".toList }], false, "r1".toList, 7⟩]) =
        (allStamped
          [⟨"BTC".toList,
            [{ zeroTrade with Price := "100".toList },
             { zeroTrade with Price := "200".toList },
             { zeroTrade with Price := "300".toList },
             { zeroTrade with Price := "400".toList },
             { zeroTrade with Price := "500".toList }], false, "r1".toList, 7⟩]).drop
          ((allStamped
            [⟨"BTC".toList,
              [{ zeroTrade with Price := "100".toList },
               { zeroTrade with Price := "200".toList },
               { zeroTrade with Price := "300".toList },
               { zeroTrade with Price := "400".toList },
               { zeroTrade with Price := "500".toList }], false, "r1".toList, 7⟩]).length - 3)) ∧
    liveList (applyBatches (NewTradeStore 3)
        [⟨"BTC".toList,
          [{ zeroTrade with Price := "100".toList },
           { zeroTrade with Price := "200".toList },
           { zeroTrade with Price := "300".toList },
           { zeroTrade with Price := "400".toList },
           { zeroTrade with Price := "500".toList }], false, "r1".toList, 7⟩]) =
      [{ zeroTrade with Price := "300".toList, Timestamp := 7, Symbol := "BTC".toList, MdReqId := "r1".toList, IsUpdate := true },
       { zeroTrade with Price := "400".toList, Timestamp := 7, Symbol := "BTC".toList, MdReqId := "r1".toList, IsUpdate := true },
       { zeroTrade with Price := "500".toList, Timestamp := 7, Symbol := "BTC".toList, MdReqId := "r1".toList, IsUpdate := true }] :=
  ⟨⟨by decide,
    (ringBufferCapacityEviction 3 (by decide)
      [⟨"BTC".toList,
        [{ zeroTrade with Price := "100".toList },
         { zeroTrade with Price := "200".toList },
         { zeroTrade with Price := "300".toList },
         { zeroTrade with Price := "400".toList },
         { zeroTrade with Price := "500".toList }], false, "r1".toList, 7⟩]).2.2.1⟩,
   by decide⟩

/-! ### Subscription registry lemmas (C8, C9, C10 groundwork) -/

theorem lookupSub_setSub_self (subs : List (Str × Subscription)) (k : Str)
    (v : Subscription) : lookupSub (setSub subs k v) k = some v := by
  induction subs with
  | nil => simp [setSub, lookupSub]
  | cons p rest ih =>
      by_cases hk : p.1 = k
      · simp [setSub, lookupSub, hk]
      · simp [setSub, lookupSub, hk, ih]

theorem lookupSub_setSub_ne (subs : List (Str × Subscription)) {k r : Str}
    (v : Subscription) (h : k ≠ r) : lookupSub (setSub subs k v) r = lookupSub subs r := by
  induction subs with
  | nil => simp [setSub, lookupSub, h]
  | cons p rest ih =>
      by_cases hk : p.1 = k
      · simp [setSub, lookupSub, hk, h]
      · simp only [setSub, if_neg hk, lookupSub]
        by_cases hr : p.1 = r
        · simp [hr]
        · simp [hr, ih]

theorem lookupSub_updateSubOnAdd_ne (subs : List (Str × Subscription)) {q r : Str}
    (n : Nat) (b : Bool) (now : Nat) (h : q ≠ r) :
    lookupSub (updateSubOnAdd subs q n b now) r = lookupSub subs r := by
  unfold updateSubOnAdd
  cases hq : lookupSub subs q with
  | none => rfl
  | some sub => exact lookupSub_setSub_ne subs _ h

theorem lookupSub_updateSubOnAdd_self (subs : List (Str × Subscription)) {q : Str}
    (n : Nat) (b : Bool) (now : Nat) {sub : Subscription}
    (h : lookupSub subs q = some sub) :
    lookupSub (updateSubOnAdd subs q n b now) q =
      some { sub with
        LastUpdate := now
        TotalUpdates := sub.TotalUpdates + (n : Int)
        SnapshotReceived := if b then true else sub.SnapshotReceived } := by
  unfold updateSubOnAdd
  rw [h]
  exact lookupSub_setSub_self subs q _

theorem foldl_insert_subscriptions (f : Trade → Trade) (rs : List Trade) :
    ∀ ts0 : TradeStore,
      (rs.foldl (fun s tr => insertOne s (f tr)) ts0).subscriptions = ts0.subscriptions := by
  induction rs with
  | nil => intro ts0; rfl
  | cons r rest ih =>
      intro ts0
      rw [List.foldl_cons, ih]
      exact (insertOne_fields ts0 (f r)).2.1

theorem AddTrades_subscriptions (ts : TradeStore) (symbol : Str) (trades : List Trade)
    (isSnapshot : Bool) (mdReqId : Str) (now : Nat) :
    (AddTrades ts symbol trades isSnapshot mdReqId now).subscriptions =
      updateSubOnAdd ts.subscriptions mdReqId trades.length isSnapshot now := by
  unfold AddTrades
  exact foldl_insert_subscriptions _ trades _

/-- The snapshot-received flag after a batch sequence, relative to its value
before: it is the old value OR-ed with "some batch under this id was a
snapshot". -/
theorem lookup_applyBatches_flag (r : Str) (calls : List BatchCall) :
    ∀ (ts : TradeStore) (sub : Subscription), lookupSub ts.subscriptions r = some sub →
      ∃ sub', lookupSub (applyBatches ts calls).subscriptions r = some sub' ∧
        sub'.SnapshotReceived =
          (sub.SnapshotReceived || calls.any fun c => decide (c.mdReqId = r) && c.isSnapshot) := by
  induction calls with
  | nil =>
      intro ts sub h
      exact ⟨sub, h, by simp⟩
  | cons c cs ih =>
      intro ts sub h
      have hstep : applyBatches ts (c :: cs) =
          applyBatches (AddTrades ts c.symbol c.trades c.isSnapshot c.mdReqId c.now) cs := rfl
      rw [hstep]
      by_cases hr : c.mdReqId = r
      · subst hr
        have hlk : lookupSub
            (AddTrades ts c.symbol c.trades c.isSnapshot c.mdReqId c.now).subscriptions
            c.mdReqId = some { sub with
              LastUpdate := c.now
              TotalUpdates := sub.TotalUpdates + (c.trades.length : Int)
              SnapshotReceived := if c.isSnapshot then true else sub.SnapshotReceived } := by
          rw [AddTrades_subscriptions]
          exact lookupSub_updateSubOnAdd_self ts.subscriptions _ _ _ h
        obtain ⟨sub', hs1, hs2⟩ := ih _ _ hlk
        refine ⟨sub', hs1, ?_⟩
        cases hb : c.isSnapshot <;> cases hsr : sub.SnapshotReceived <;>
          simp [hs2, hb, hsr, List.any_cons]
      · have hlk : lookupSub
            (AddTrades ts c.symbol c.trades c.isSnapshot c.mdReqId c.now).subscriptions r
            = some sub := by
          rw [AddTrades_subscriptions]
          rw [lookupSub_updateSubOnAdd_ne ts.subscriptions _ _ _ hr]
          exact h
        obtain ⟨sub', hs1, hs2⟩ := ih _ _ hlk
        refine ⟨sub', hs1, ?_⟩
        rw [hs2]
        simp [List.any_cons, hr]

/-- C10: `AddSubscription` unconditionally installs a fresh subscription record
(`Active = true`, `SnapshotReceived = false`, `TotalUpdates = 0`,
`LastUpdate = now`) under the request id, whatever was registered before. -/
theorem addSubscriptionReplacesWithFresh (ts : TradeStore)
    (symbol subscriptionType mdReqId : Str) (now : Nat) :
    lookupSub (AddSubscription ts symbol subscriptionType mdReqId now).subscriptions mdReqId =
      some { LastUpdate := now
             TotalUpdates := 0
             Symbol := symbol
             SubscriptionType := subscriptionType
             MdReqId := mdReqId
             Active := true
             SnapshotReceived := false } := by
  unfold AddSubscription
  exact lookupSub_setSub_self ts.subscriptions mdReqId _

/-- C9: a subscription's `SnapshotReceived` flag is `false` at creation, and
after any sequence of `AddTrades` calls it is `true` exactly when some call
under its request id had `isSnapshot = true` — so it stays `false` across
non-snapshot batches, becomes `true` at the first snapshot batch, and stays
`true` afterwards. -/
theorem snapshotReceivedLatch (ts : TradeStore) (symbol subscriptionType mdReqId : Str)
    (now : Nat) (calls : List BatchCall) :
    (lookupSub (AddSubscription ts symbol subscriptionType mdReqId now).subscriptions
        mdReqId).map Subscription.SnapshotReceived = some false ∧
    (lookupSub
        (applyBatches (AddSubscription ts symbol subscriptionType mdReqId now) calls).subscriptions
        mdReqId).map Subscription.SnapshotReceived =
      some (calls.any fun c => decide (c.mdReqId = mdReqId) && c.isSnapshot) := by
  have hbase : lookupSub
      (AddSubscription ts symbol subscriptionType mdReqId now).subscriptions mdReqId =
      some { LastUpdate := now
             TotalUpdates := 0
             Symbol := symbol
             SubscriptionType := subscriptionType
             MdReqId := mdReqId
             Active := true
             SnapshotReceived := false } := by
    unfold AddSubscription
    exact lookupSub_setSub_self ts.subscriptions mdReqId _
  constructor
  · rw [hbase]; rfl
  · obtain ⟨sub', hs1, hs2⟩ := lookup_applyBatches_flag mdReqId calls _ _ hbase
    rw [hs1, Option.map_some', hs2]
    simp

/-- C8: every record stored by `AddTrades` equals the corresponding input
record with `Timestamp` set to the call's one shared `now`, `Symbol`,
`MdReqId`, `IsSnapshot` overwritten from the call's arguments and `IsUpdate`
set to the negation of `isSnapshot`; all other fields are unchanged, and
exactly one of `IsSnapshot`/`IsUpdate` holds on each stored record. -/
theorem addTradesStampsAuthoritativeFields (ts : TradeStore) (symbol : Str)
    (trades : List Trade) (isSnapshot : Bool) (mdReqId : Str) (now : Nat)
    (hwf : WFStore ts) :
    liveList (AddTrades ts symbol trades isSnapshot mdReqId now) =
      (liveList ts ++ trades.map fun tr => stampTrade tr symbol mdReqId isSnapshot now).drop
        (ts.count + trades.length - ts.maxSize) ∧
    ∀ tr : Trade,
      (stampTrade tr symbol mdReqId isSnapshot now).Timestamp = now ∧
      (stampTrade tr symbol mdReqId isSnapshot now).Symbol = symbol ∧
      (stampTrade tr symbol mdReqId isSnapshot now).MdReqId = mdReqId ∧
      (stampTrade tr symbol mdReqId isSnapshot now).IsSnapshot = isSnapshot ∧
      (stampTrade tr symbol mdReqId isSnapshot now).IsUpdate = !isSnapshot ∧
      (stampTrade tr symbol mdReqId isSnapshot now).Price = tr.Price ∧
      (stampTrade tr symbol mdReqId isSnapshot now).Size = tr.Size ∧
      (stampTrade tr symbol mdReqId isSnapshot now).Time = tr.Time ∧
      (stampTrade tr symbol mdReqId isSnapshot now).Aggressor = tr.Aggressor ∧
      (stampTrade tr symbol mdReqId isSnapshot now).EntryType = tr.EntryType ∧
      (stampTrade tr symbol mdReqId isSnapshot now).Position = tr.Position ∧
      (stampTrade tr symbol mdReqId isSnapshot now).SeqNum = tr.SeqNum ∧
      (stampTrade tr symbol mdReqId isSnapshot now).IsSnapshot =
        !(stampTrade tr symbol mdReqId isSnapshot now).IsUpdate := by
  refine ⟨(AddTrades_spec ts symbol trades isSnapshot mdReqId now hwf).2.2.2.2, ?_⟩
  intro tr
  refine ⟨rfl, rfl, rfl, rfl, rfl, rfl, rfl, rfl, rfl, rfl, rfl, rfl, ?_⟩
  show isSnapshot = !(!isSnapshot)
  simp

/-- Witness for C8 at a concrete store and batch. -/
theorem addTradesStampsAuthoritativeFields_witness :
    WFStore (NewTradeStore 2) ∧
    (liveList (AddTrades (NewTradeStore 2) "ETH".toList
        [{ zeroTrade with Price := "9".toList, IsSnapshot := true }] false "q7".toList 3) =
      (liveList (NewTradeStore 2) ++
        [{ zeroTrade with Price := "9".toList, IsSnapshot := true }].map fun tr =>
          stampTrade tr "ETH".toList "q7".toList false 3).drop
        ((NewTradeStore 2).count + 1 - (NewTradeStore 2).maxSize) ∧
      ∀ tr : Trade,
        (stampTrade tr "ETH".toList "q7".toList false 3).Timestamp = 3 ∧
        (stampTrade tr "ETH".toList "q7".toList false 3).Symbol = "ETH".toList ∧
        (stampTrade tr "ETH".toList "q7".toList false 3).MdReqId = "q7".toList ∧
        (stampTrade tr "ETH".toList "q7".toList false 3).IsSnapshot = false ∧
        (stampTrade tr "ETH".toList "q7".toList false 3).IsUpdate = !false ∧
        (stampTrade tr "ETH".toList "q7".toList false 3).Price = tr.Price ∧
        (stampTrade tr "ETH".toList "q7".toList false 3).Size = tr.Size ∧
        (stampTrade tr "ETH".toList "q7".toList false 3).Time = tr.Time ∧
        (stampTrade tr "ETH".toList "q7".toList false 3).Aggressor = tr.Aggressor ∧
        (stampTrade tr "ETH".toList "q7".toList false 3).EntryType = tr.EntryType ∧
        (stampTrade tr "ETH".toList "q7".toList false 3).Position = tr.Position ∧
        (stampTrade tr "ETH".toList "q7".toList false 3).SeqNum = tr.SeqNum ∧
        (stampTrade tr "ETH".toList "q7".toList false 3).IsSnapshot =
          !(stampTrade tr "ETH".toList "q7".toList false 3).IsUpdate) ∧
    liveList (AddTrades (NewTradeStore 2) "ETH".toList
        [{ zeroTrade with Price := "9".toList, IsSnapshot := true }] false "q7".toList 3) =
      [{ zeroTrade with Price := "9".toList, Timestamp := 3, Symbol := "ETH".toList, MdReqId := "q7".toList, IsUpdate := true }] :=
  ⟨by decide,
   addTradesStampsAuthoritativeFields (NewTradeStore 2) "ETH".toList
     [{ zeroTrade with Price := "9".toList, IsSnapshot := true }] false "q7".toList 3
     (by decide),
   by decide⟩

/-! ### `GetRecentTrades` / `GetAllTrades` characterisation (C2, C5 groundwork) -/

theorem scanCount_bridge (ts : TradeStore) (symbol : Str) (limit : Nat) :
    ∀ r, r ≤ ts.count → ∀ mc,
      scanCount ts symbol limit r mc =
        cappedCount symbol limit ((liveList ts).take r).reverse mc := by
  intro r
  induction r with
  | zero => intro _ mc; rfl
  | succ r ih =>
      intro hr mc
      have hidx : (ts.head + ts.count - 1 - (ts.count - (r + 1))) % ts.maxSize
          = (ts.head + r) % ts.maxSize := by congr 1; omega
      have htake : (liveList ts).take (r + 1)
          = (liveList ts).take r ++ [tradeAt ts ((ts.head + r) % ts.maxSize)] := by
        rw [List.take_succ]
        have := liveList_getElem? ts (show r < ts.count by omega)
        rw [this]
        rfl
      rw [htake, List.reverse_append, List.reverse_singleton, List.singleton_append]
      simp only [scanCount, cappedCount, hidx]
      by_cases hmc : mc < limit
      · rw [if_pos hmc, if_pos hmc, ih (by omega)]
      · rw [if_neg hmc, if_neg hmc]

theorem cappedCount_min (symbol : Str) (limit : Nat) :
    ∀ (l : List Trade) (mc : Nat), mc ≤ limit →
      cappedCount symbol limit l mc =
        min limit (mc + (l.filter fun t => t.Symbol = symbol).length) := by
  intro l
  induction l with
  | nil =>
      intro mc h
      simp only [cappedCount, List.filter_nil, List.length_nil, Nat.add_zero]
      omega
  | cons t rest ih =>
      intro mc h
      simp only [cappedCount, List.filter_cons]
      by_cases hmc : mc < limit
      · rw [if_pos hmc]
        by_cases ht : t.Symbol = symbol
        · rw [if_pos ht, ih _ (by omega)]
          simp only [if_pos (show (decide (t.Symbol = symbol)) = true by simp [ht]),
            List.length_cons]
          omega
        · rw [if_neg ht, ih _ h]
          simp only [if_neg (show ¬(decide (t.Symbol = symbol)) = true by simp [ht])]
      · rw [if_neg hmc]
        have hmceq : mc = limit := by omega
        split
        · simp only [List.length_cons]; omega
        · omega

theorem matchCount_formula (ts : TradeStore) (symbol : Str) (limit : Nat) :
    scanCount ts symbol limit ts.count 0 =
      min limit ((liveList ts).filter fun t => t.Symbol = symbol).length := by
  rw [scanCount_bridge ts symbol limit ts.count (le_refl _) 0,
    cappedCount_min symbol limit _ 0 (Nat.zero_le _)]
  rw [show (liveList ts).take ts.count = liveList ts by
      rw [← liveList_length ts]; exact List.take_length _]
  rw [List.filter_reverse, List.length_reverse, Nat.zero_add]

theorem fillPass_bridge (ts : TradeStore) (symbol : Str) :
    ∀ r, r ≤ ts.count → ∀ left acc,
      fillPass ts symbol r left acc =
        fillList symbol ((liveList ts).take r).reverse left acc := by
  intro r
  induction r with
  | zero => intro _ left acc; rfl
  | succ r ih =>
      intro hr left acc
      have hidx : (ts.head + ts.count - 1 - (ts.count - (r + 1))) % ts.maxSize
          = (ts.head + r) % ts.maxSize := by congr 1; omega
      have htake : (liveList ts).take (r + 1)
          = (liveList ts).take r ++ [tradeAt ts ((ts.head + r) % ts.maxSize)] := by
        rw [List.take_succ]
        have := liveList_getElem? ts (show r < ts.count by omega)
        rw [this]
        rfl
      rw [htake, List.reverse_append, List.reverse_singleton, List.singleton_append]
      simp only [fillPass, fillList, hidx]
      by_cases hl : left = 0
      · rw [if_pos hl, if_pos hl]
      · rw [if_neg hl, if_neg hl]
        by_cases ht : (tradeAt ts ((ts.head + r) % ts.maxSize)).Symbol = symbol
        · rw [if_pos ht, if_pos ht, ih (by omega)]
        · rw [if_neg ht, if_neg ht, ih (by omega)]

theorem firstMatches_take (symbol : Str) :
    ∀ (l : List Trade) (k : Nat),
      firstMatches symbol k l = (l.filter fun t => t.Symbol = symbol).take k := by
  intro l
  induction l with
  | nil => intro k; cases k <;> rfl
  | cons t rest ih =>
      intro k
      cases k with
      | zero => rfl
      | succ k =>
          simp only [firstMatches, List.filter_cons]
          by_cases ht : t.Symbol = symbol
          · rw [if_pos ht,
              if_pos (show (decide (t.Symbol = symbol)) = true by simp [ht]),
              List.take_succ_cons, ih]
          · rw [if_neg ht,
              if_neg (show ¬(decide (t.Symbol = symbol)) = true by simp [ht]), ih]

theorem fillList_spec (symbol : Str) :
    ∀ (l : List Trade) (left : Nat) (acc : List Trade), left ≤ acc.length →
      left ≤ (l.filter fun t => t.Symbol = symbol).length →
      fillList symbol l left acc = (firstMatches symbol left l).reverse ++ acc.drop left := by
  intro l
  induction l with
  | nil =>
      intro left acc h1 h2
      simp only [List.filter_nil, List.length_nil, Nat.le_zero] at h2
      subst h2
      simp [fillList, firstMatches]
  | cons t rest ih =>
      intro left acc h1 h2
      cases left with
      | zero => simp [fillList, firstMatches]
      | succ m =>
          simp only [fillList, Nat.succ_ne_zero, if_neg (Nat.succ_ne_zero m)]
          by_cases ht : t.Symbol = symbol
          · rw [if_pos ht]
            simp only [Nat.add_sub_cancel]
            have hm : m < acc.length := by omega
            have hfilter : m ≤ (rest.filter fun tr => tr.Symbol = symbol).length := by
              rw [List.filter_cons, if_pos (show (decide (t.Symbol = symbol)) = true by
                simp [ht]), List.length_cons] at h2
              omega
            rw [ih m (acc.set m t) (by rw [List.length_set]; omega) hfilter]
            have hdropset : (acc.set m t).drop m = t :: acc.drop (m + 1) := by
              rw [List.drop_set, if_neg (lt_irrefl m), Nat.sub_self,
                List.drop_eq_getElem_cons hm, List.set_cons_zero]
            rw [hdropset]
            simp only [firstMatches, if_pos ht, List.reverse_cons, List.append_assoc,
              List.singleton_append]
            simp
          · rw [if_neg ht]
            have hfilter : m + 1 ≤ (rest.filter fun tr => tr.Symbol = symbol).length := by
              rw [List.filter_cons, if_neg (show ¬(decide (t.Symbol = symbol)) = true by
                simp [ht])] at h2
              omega
            rw [ih (m + 1) acc h1 hfilter]
            simp only [firstMatches, if_neg ht]
            simp

/-- The two-pass `GetRecentTrades` equals: take the live records matching the
symbol, and return the last `limit` of them (all of them when fewer), oldest
first — `none` when there are no matches at all. -/
theorem getRecentTrades_eq (ts : TradeStore) (symbol : Str) (limit : Nat)
    (hlim : 1 ≤ limit) :
    GetRecentTrades ts symbol limit =
      (if ((liveList ts).filter fun t => t.Symbol = symbol) = [] then none
       else some (((liveList ts).filter fun t => t.Symbol = symbol).drop
         (((liveList ts).filter fun t => t.Symbol = symbol).length - limit))) := by
  unfold GetRecentTrades
  by_cases h0 : ts.count = 0
  · rw [if_pos h0]
    have hnil : liveList ts = [] := by
      apply List.eq_nil_of_length_eq_zero
      rw [liveList_length, h0]
    rw [hnil]
    simp
  · rw [if_neg h0]
    simp only [matchCount_formula]
    by_cases hm : ((liveList ts).filter fun t => t.Symbol = symbol) = []
    · rw [if_pos hm, hm]
      simp
    · have hk : 1 ≤ ((liveList ts).filter fun t => t.Symbol = symbol).length := by
        cases hh : ((liveList ts).filter fun t => t.Symbol = symbol) with
        | nil => exact absurd hh hm
        | cons a b => simp [hh]
      rw [if_neg (show ¬(min limit ((liveList ts).filter
          fun t => t.Symbol = symbol).length = 0) by omega), if_neg hm]
      congr 1
      rw [fillPass_bridge ts symbol ts.count (le_refl _)]
      rw [show (liveList ts).take ts.count = liveList ts by
        rw [← liveList_length ts]; exact List.take_length _]
      rw [fillList_spec symbol _ _ _
        (by rw [List.length_replicate])
        (by rw [List.filter_reverse, List.length_reverse]; exact Nat.min_le_right _ _)]
      have hrep : ∀ n : Nat, (List.replicate n zeroTrade).drop n = [] := by
        intro n
        have h := List.drop_length (List.replicate n zeroTrade)
        rwa [List.length_replicate] at h
      rw [hrep, List.append_nil, firstMatches_take, List.filter_reverse, List.take_reverse,
        List.reverse_reverse]
      congr 1
      omega

/-- C2: for every well-formed store state, symbol and limit `L ≥ 1`,
`GetRecentTrades` returns exactly the `min (L, k)` most recent live records
matching the symbol (`k` the number of matches), oldest first — the suffix of
the matching sublist — and never more than `L` records. -/
theorem recentBySymbolReturnsRecentMatches (ts : TradeStore) (symbol : Str) (limit : Nat)
    (hwf : WFStore ts) (hlim : 1 ≤ limit) :
    GetRecentTrades ts symbol limit =
      (if ((liveList ts).filter fun t => t.Symbol = symbol) = [] then none
       else some (((liveList ts).filter fun t => t.Symbol = symbol).drop
         (((liveList ts).filter fun t => t.Symbol = symbol).length - limit))) ∧
    ∀ res, GetRecentTrades ts symbol limit = some res →
      res.length = min limit ((liveList ts).filter fun t => t.Symbol = symbol).length ∧
      res.length ≤ limit := by
  refine ⟨getRecentTrades_eq ts symbol limit hlim, ?_⟩
  intro res hres
  rw [getRecentTrades_eq ts symbol limit hlim] at hres
  by_cases hm : ((liveList ts).filter fun t => t.Symbol = symbol) = []
  · rw [if_pos hm] at hres; exact absurd hres (by simp)
  · rw [if_neg hm] at hres
    have hk : 1 ≤ ((liveList ts).filter fun t => t.Symbol = symbol).length := by
      cases hh : ((liveList ts).filter fun t => t.Symbol = symbol) with
      | nil => exact absurd hh hm
      | cons a b => simp [hh]
    have : res = ((liveList ts).filter fun t => t.Symbol = symbol).drop
        (((liveList ts).filter fun t => t.Symbol = symbol).length - limit) :=
      (Option.some_inj.mp hres).symm
    subst this
    rw [List.length_drop]
    constructor <;> omega

/-- Witness for C2: a store holding four records of two symbols; limit 2
returns the two most recent `"A"` records, oldest first. -/
theorem recentBySymbolReturnsRecentMatches_witness :
    (WFStore (applyBatches (NewTradeStore 3)
        [⟨"A".toList, [{ zeroTrade with Price := "1".toList },
                       { zeroTrade with Price := "2".toList }], false, "r".toList, 1⟩,
         ⟨"B".toList, [{ zeroTrade with Price := "3".toList }], false, "r".toList, 2⟩,
         ⟨"A".toList, [{ zeroTrade with Price := "4".toList }], false, "r".toList, 3⟩]) ∧
      1 ≤ 2) ∧
    GetRecentTrades (applyBatches (NewTradeStore 3)
        [⟨"A".toList, [{ zeroTrade with Price := "1".toList },
                       { zeroTrade with Price := "2".toList }], false, "r".toList, 1⟩,
         ⟨"B".toList, [{ zeroTrade with Price := "3".toList }], false, "r".toList, 2⟩,
         ⟨"A".toList, [{ zeroTrade with Price := "4".toList }], false, "r".toList, 3⟩])
      "A".toList 2 =
      some [{ zeroTrade with Price := "2".toList, Timestamp := 1, Symbol := "A".toList, MdReqId := "r".toList, IsUpdate := true },
            { zeroTrade with Price := "4".toList, Timestamp := 3, Symbol := "A".toList, MdReqId := "r".toList, IsUpdate := true }] ∧
    (GetRecentTrades (applyBatches (NewTradeStore 3)
          [⟨"A".toList, [{ zeroTrade with Price := "1".toList },
                         { zeroTrade with Price := "2".toList }], false, "r".toList, 1⟩,
           ⟨"B".toList, [{ zeroTrade with Price := "3".toList }], false, "r".toList, 2⟩,
           ⟨"A".toList, [{ zeroTrade with Price := "4".toList }], false, "r".toList, 3⟩])
        "A".toList 2 =
        (if ((liveList (applyBatches (NewTradeStore 3)
            [⟨"A".toList, [{ zeroTrade with Price := "1".toList },
                           { zeroTrade with Price := "2".toList }], false, "r".toList, 1⟩,
             ⟨"B".toList, [{ zeroTrade with Price := "3".toList }], false, "r".toList, 2⟩,
             ⟨"A".toList, [{ zeroTrade with Price := "4".toList }], false, "r".toList, 3⟩])).filter
              fun t => t.Symbol = "A".toList) = [] then none
         else some (((liveList (applyBatches (NewTradeStore 3)
            [⟨"A".toList, [{ zeroTrade with Price := "1".toList },
                           { zeroTrade with Price := "2".toList }], false, "r".toList, 1⟩,
             ⟨"B".toList, [{ zeroTrade with Price := "3".toList }], false, "r".toList, 2⟩,
             ⟨"A".toList, [{ zeroTrade with Price := "4".toList }], false, "r".toList, 3⟩])).filter
              fun t => t.Symbol = "A".toList).drop
           (((liveList (applyBatches (NewTradeStore 3)
            [⟨"A".toList, [{ zeroTrade with Price := "1".toList },
                           { zeroTrade with Price := "2".toList }], false, "r".toList, 1⟩,
             ⟨"B".toList, [{ zeroTrade with Price := "3".toList }], false, "r".toList, 2⟩,
             ⟨"A".toList, [{ zeroTrade with Price := "4".toList }], false, "r".toList, 3⟩])).filter
              fun t => t.Symbol = "A".toList).length - 2)))) := by
  refine ⟨⟨by decide, by decide⟩, by decide, ?_⟩
  exact (recentBySymbolReturnsRecentMatches (applyBatches (NewTradeStore 3)
      [⟨"A".toList, [{ zeroTrade with Price := "1".toList },
                     { zeroTrade with Price := "2".toList }], false, "r".toList, 1⟩,
       ⟨"B".toList, [{ zeroTrade with Price := "3".toList }], false, "r".toList, 2⟩,
       ⟨"A".toList, [{ zeroTrade with Price := "4".toList }], false, "r".toList, 3⟩])
    "A".toList 2 (by decide) (by decide)).1

/-- C5: `GetRecentTrades` and `GetAllTrades` return `nil` (modelled `none`,
never a non-nil empty slice) when the store holds no live records, and
`GetRecentTrades` also returns `nil` when no live record matches the symbol;
`GetAllTrades` is `none` exactly on the empty store, so the pair of query
results distinguishes "never received data" from "received and filtered to
zero". -/
theorem absentResultDistinction (ts : TradeStore) (symbol : Str) (limit : Nat)
    (hwf : WFStore ts) (hlim : 1 ≤ limit) :
    (GetAllTrades ts = none ↔ ts.count = 0) ∧
    (GetRecentTrades ts symbol limit = none ↔
      ((liveList ts).filter fun t => t.Symbol = symbol) = []) ∧
    (ts.count = 0 → GetAllTrades ts = none ∧ GetRecentTrades ts symbol limit = none) ∧
    (∀ l, GetAllTrades ts = some l → l ≠ []) ∧
    (∀ l, GetRecentTrades ts symbol limit = some l → l ≠ []) ∧
    (∀ ts' : TradeStore, WFStore ts' → ts.count = 0 → ts'.count ≠ 0 →
      GetAllTrades ts = none ∧ GetAllTrades ts' ≠ none) := by
  have hAll : ∀ u : TradeStore, GetAllTrades u = none ↔ u.count = 0 := by
    intro u
    unfold GetAllTrades
    by_cases h : u.count = 0
    · simp [h]
    · simp [h]
  have hRec : GetRecentTrades ts symbol limit = none ↔
      ((liveList ts).filter fun t => t.Symbol = symbol) = [] := by
    rw [getRecentTrades_eq ts symbol limit hlim]
    by_cases hm : ((liveList ts).filter fun t => t.Symbol = symbol) = [] <;> simp [hm]
  refine ⟨hAll ts, hRec, ?_, ?_, ?_, ?_⟩
  · intro h0
    refine ⟨(hAll ts).mpr h0, hRec.mpr ?_⟩
    have hnil : liveList ts = [] := by
      apply List.eq_nil_of_length_eq_zero
      rw [liveList_length, h0]
    rw [hnil, List.filter_nil]
  · intro l hl
    unfold GetAllTrades at hl
    by_cases h : ts.count = 0
    · rw [if_pos h] at hl; exact absurd hl (by simp)
    · rw [if_neg h] at hl
      have hl' := Option.some_inj.mp hl
      intro hcontra
      rw [hcontra] at hl'
      have := congrArg List.length hl'
      simp at this
      omega
  · intro l hl
    rw [getRecentTrades_eq ts symbol limit hlim] at hl
    by_cases hm : ((liveList ts).filter fun t => t.Symbol = symbol) = []
    · rw [if_pos hm] at hl; exact absurd hl (by simp)
    · rw [if_neg hm] at hl
      have hk : 1 ≤ ((liveList ts).filter fun t => t.Symbol = symbol).length := by
        cases hh : ((liveList ts).filter fun t => t.Symbol = symbol) with
        | nil => exact absurd hh hm
        | cons a b => simp [hh]
      have hl' := Option.some_inj.mp hl
      intro hcontra
      rw [hcontra] at hl'
      have := congrArg List.length hl'
      rw [List.length_drop] at this
      simp at this
      omega
  · intro ts' hwf' h0 h0'
    refine ⟨(hAll ts).mpr h0, ?_⟩
    intro hcontra
    exact h0' ((hAll ts').mp hcontra)

/-- Witness for C5: an empty store and a one-record store queried for a
missing symbol both yield `none` from `GetRecentTrades`, while `GetAllTrades`
tells them apart. -/
theorem absentResultDistinction_witness :
    (WFStore (AddTrades (NewTradeStore 2) "A".toList [zeroTrade] false "r".toList 1) ∧
      1 ≤ 1) ∧
    ((GetAllTrades (AddTrades (NewTradeStore 2) "A".toList [zeroTrade] false "r".toList 1) =
        none ↔
        (AddTrades (NewTradeStore 2) "A".toList [zeroTrade] false "r".toList 1).count = 0) ∧
      (GetRecentTrades (AddTrades (NewTradeStore 2) "A".toList [zeroTrade] false "r".toList 1)
          "B".toList 1 = none ↔
        ((liveList (AddTrades (NewTradeStore 2) "A".toList [zeroTrade] false
            "r".toList 1)).filter fun t => t.Symbol = "B".toList) = []) ∧
      ((AddTrades (NewTradeStore 2) "A".toList [zeroTrade] false "r".toList 1).count = 0 →
        GetAllTrades (AddTrades (NewTradeStore 2) "A".toList [zeroTrade] false "r".toList 1) =
          none ∧
        GetRecentTrades (AddTrades (NewTradeStore 2) "A".toList [zeroTrade] false "r".toList 1)
          "B".toList 1 = none) ∧
      (∀ l, GetAllTrades (AddTrades (NewTradeStore 2) "A".toList [zeroTrade] false
          "r".toList 1) = some l → l ≠ []) ∧
      (∀ l, GetRecentTrades (AddTrades (NewTradeStore 2) "A".toList [zeroTrade] false
          "r".toList 1) "B".toList 1 = some l → l ≠ []) ∧
      (∀ ts' : TradeStore, WFStore ts' →
        (AddTrades (NewTradeStore 2) "A".toList [zeroTrade] false "r".toList 1).count = 0 →
        ts'.count ≠ 0 →
        GetAllTrades (AddTrades (NewTradeStore 2) "A".toList [zeroTrade] false "r".toList 1) =
          none ∧
        GetAllTrades ts' ≠ none)) ∧
    GetRecentTrades (NewTradeStore 2) "B".toList 1 = none ∧
    GetRecentTrades (AddTrades (NewTradeStore 2) "A".toList [zeroTrade] false "r".toList 1)
      "B".toList 1 = none ∧
    GetAllTrades (NewTradeStore 2) = none ∧
    GetAllTrades (AddTrades (NewTradeStore 2) "A".toList [zeroTrade] false "r".toList 1) ≠
      none :=
  ⟨⟨by decide, by decide⟩,
   absentResultDistinction
     (AddTrades (NewTradeStore 2) "A".toList [zeroTrade] false "r".toList 1)
     "B".toList 1 (by decide) (by decide),
   by decide, by decide, by decide, by decide⟩

/-! ### Entry-parser claims -/

/-- C7: when the single-pass scan of a segment yields a bid ("0") or offer
("1") entry type and extracted no position value from tag 290, the parsed
record's position is the decimal string of `entryIndex + 1`. -/
theorem defaultPositionAssignment (segment symbol mdReqId : Str) (isSnapshot : Bool)
    (seqNum : Str) (entryIndex : Nat) (timestamp : Nat)
    (het : (parseLoop (initTrade symbol mdReqId isSnapshot seqNum timestamp)
        segment).EntryType = "0".toList ∨
      (parseLoop (initTrade symbol mdReqId isSnapshot seqNum timestamp)
        segment).EntryType = "1".toList)
    (hpos : (parseLoop (initTrade symbol mdReqId isSnapshot seqNum timestamp)
        segment).Position = []) :
    (parseTradeFromSegmentFast segment symbol mdReqId isSnapshot seqNum entryIndex
        timestamp).Position = Nat.toDigits 10 (entryIndex + 1) := by
  simp only [parseTradeFromSegmentFast]
  rw [if_pos ⟨hpos, het⟩]

/-- Witness for C7: the spec's example segment, parsed as entry index 0,
receives position `"1"`. -/
theorem defaultPositionAssignment_witness :
    ((parseLoop (initTrade "BTC".toList "r".toList false "5".toList 0)
        "269=0\x01270=49999.00\x01271=1.0\x01".toList).EntryType = "0".toList ∨
      (parseLoop (initTrade "BTC".toList "r".toList false "5".toList 0)
        "269=0\x01270=49999.00\x01271=1.0\x01".toList).EntryType = "1".toList) ∧
    (parseLoop (initTrade "BTC".toList "r".toList false "5".toList 0)
        "269=0\x01270=49999.00\x01271=1.0\x01".toList).Position = [] ∧
    (parseTradeFromSegmentFast "269=0\x01270=49999.00\x01271=1.0\x01".toList
        "BTC".toList "r".toList false "5".toList 0 0).Position = Nat.toDigits 10 (0 + 1) ∧
    (parseTradeFromSegmentFast "269=0\x01270=49999.00\x01271=1.0\x01".toList
        "BTC".toList "r".toList false "5".toList 0 0).Position = "1".toList :=
  ⟨Or.inl (by simp [parseLoop, findCharIdx, applyTag, initTrade, zeroTrade, soh,
      getAggressorSideDesc]),
   by simp [parseLoop, findCharIdx, applyTag, initTrade, zeroTrade, soh, getAggressorSideDesc],
   defaultPositionAssignment "269=0\x01270=49999.00\x01271=1.0\x01".toList
     "BTC".toList "r".toList false "5".toList 0 0
     (Or.inl (by simp [parseLoop, findCharIdx, applyTag, initTrade, zeroTrade, soh,
        getAggressorSideDesc]))
     (by simp [parseLoop, findCharIdx, applyTag, initTrade, zeroTrade, soh,
        getAggressorSideDesc]),
   by simp [parseTradeFromSegmentFast, parseLoop, findCharIdx, applyTag, initTrade, zeroTrade,
      soh, getAggressorSideDesc, Nat.toDigits, Nat.toDigitsCore, Nat.digitChar]⟩

/-! ### Occurrence-search lemmas (`matchesAt` / `strIndex`) -/

theorem matchesAt_iff_exists : ∀ p s : Str, matchesAt p s = true ↔ ∃ v, s = p ++ v := by
  intro p
  induction p with
  | nil => intro s; simp [matchesAt]
  | cons c ps ih =>
      intro s
      cases s with
      | nil => simp [matchesAt]
      | cons d ss =>
          simp only [matchesAt, Bool.and_eq_true, decide_eq_true_eq]
          rw [ih ss]
          constructor
          · rintro ⟨h1, v, h2⟩
            exact ⟨v, by rw [List.cons_append, ← h1, ← h2]⟩
          · rintro ⟨v, hv⟩
            rw [List.cons_append] at hv
            injection hv with h1 h2
            exact ⟨h1.symm, v, h2⟩

theorem matchesAt_length {p s : Str} (h : matchesAt p s = true) : p.length ≤ s.length := by
  obtain ⟨v, rfl⟩ := (matchesAt_iff_exists p s).mp h
  simp

theorem matchesAt_of_ne_true {p s : Str} (h : ¬matchesAt p s = true) :
    matchesAt p s = false := by
  cases hm : matchesAt p s
  · rfl
  · exact absurd hm h

theorem strIndex_some : ∀ (s pat : Str) (i : Nat), strIndex s pat = some i →
    matchesAt pat (s.drop i) = true ∧ ∀ j, j < i → matchesAt pat (s.drop j) = false := by
  intro s
  induction s with
  | nil =>
      intro pat i h
      by_cases hp : pat = []
      · subst hp
        simp only [strIndex, if_true] at h
        rw [Option.some_inj] at h
        subst h
        exact ⟨rfl, fun j hj => absurd hj (by omega)⟩
      · simp [strIndex, hp] at h
  | cons c rest ih =>
      intro pat i h
      by_cases hm : matchesAt pat (c :: rest) = true
      · rw [strIndex, if_pos hm, Option.some_inj] at h
        subst h
        exact ⟨hm, fun j hj => absurd hj (by omega)⟩
      · rw [strIndex, if_neg hm] at h
        rw [Option.map_eq_some'] at h
        obtain ⟨j, hj, rfl⟩ := h
        obtain ⟨hocc, hmin⟩ := ih pat j hj
        refine ⟨by rwa [List.drop_succ_cons], ?_⟩
        intro j' hj'
        cases j' with
        | zero => exact matchesAt_of_ne_true hm
        | succ k =>
            rw [List.drop_succ_cons]
            exact hmin k (by omega)

theorem strIndex_none : ∀ s pat : Str, strIndex s pat = none →
    ∀ j, matchesAt pat (s.drop j) = false := by
  intro s
  induction s with
  | nil =>
      intro pat h j
      by_cases hp : pat = []
      · subst hp; simp [strIndex] at h
      · rw [List.drop_nil]
        cases pat with
        | nil => exact absurd rfl hp
        | cons a b => rfl
  | cons c rest ih =>
      intro pat h j
      by_cases hm : matchesAt pat (c :: rest) = true
      · rw [strIndex, if_pos hm] at h
        exact absurd h (by simp)
      · cases j with
        | zero => exact matchesAt_of_ne_true hm
        | succ k =>
            rw [List.drop_succ_cons]
            apply ih
            rw [strIndex, if_neg hm, Option.map_eq_none'] at h
            exact h

theorem strIndex_eq_some_of {s pat : Str} {i : Nat}
    (h1 : matchesAt pat (s.drop i) = true)
    (h2 : ∀ j, j < i → matchesAt pat (s.drop j) = false) :
    strIndex s pat = some i := by
  cases hx : strIndex s pat with
  | none =>
      have := strIndex_none s pat hx i
      rw [this] at h1
      exact absurd h1 (by simp)
  | some k =>
      obtain ⟨hocc, hmin⟩ := strIndex_some s pat k hx
      rcases Nat.lt_trichotomy k i with hlt | heq | hgt
      · rw [h2 k hlt] at hocc
        exact absurd hocc (by simp)
      · rw [heq]
      · rw [hmin i hgt] at h1
        exact absurd h1 (by simp)

/-- `strings.Index` of a single character after a clean run. -/
theorem strIndex_single_after_clean {c : Char} : ∀ {v w : Str}, c ∉ v →
    strIndex (v ++ c :: w) [c] = some v.length := by
  intro v
  induction v with
  | nil =>
      intro w _
      rw [List.nil_append, strIndex,
        if_pos (show matchesAt [c] (c :: w) = true by simp [matchesAt])]
      rfl
  | cons x v' ih =>
      intro w hc
      have hx : ¬x = c := fun hxc => hc (by rw [hxc]; exact List.mem_cons_self _ _)
      rw [List.cons_append, strIndex,
        if_neg (show ¬matchesAt [c] (x :: (v' ++ c :: w)) = true by
          simp [matchesAt]; exact fun hcx => hx hcx.symm),
        ih (fun hin => hc (List.mem_cons_of_mem _ hin))]
      rfl

/-- `strings.Index` of a single character absent from the text. -/
theorem strIndex_single_none {c : Char} : ∀ {l : Str}, c ∉ l → strIndex l [c] = none := by
  intro l
  induction l with
  | nil => intro _; rfl
  | cons x rest ih =>
      intro hc
      have hx : ¬x = c := fun hxc => hc (by rw [hxc]; exact List.mem_cons_self _ _)
      rw [strIndex,
        if_neg (show ¬matchesAt [c] (x :: rest) = true by
          simp [matchesAt]; exact fun hcx => hx hcx.symm),
        ih (fun hin => hc (List.mem_cons_of_mem _ hin))]
      rfl

/-- The tag prefix does not occur anywhere: the extracted value is empty. -/
theorem extract_absent (seg tagPat : Str)
    (habsent : ∀ j, j ≤ seg.length → matchesAt tagPat (seg.drop j) = false) :
    extractSingleFieldValue seg tagPat = [] := by
  have hnone : strIndex seg tagPat = none := by
    cases hx : strIndex seg tagPat with
    | none => rfl
    | some k =>
        obtain ⟨hocc, _⟩ := strIndex_some seg tagPat k hx
        by_cases hk : k ≤ seg.length
        · rw [habsent k hk] at hocc
          exact absurd hocc (by simp)
        · rw [List.drop_eq_nil_of_le (by omega)] at hocc
          have h0 := habsent seg.length (le_refl _)
          rw [List.drop_eq_nil_of_le (le_refl _)] at h0
          rw [h0] at hocc
          exact absurd hocc (by simp)
  unfold extractSingleFieldValue
  rw [hnone]

theorem extract_first_value (seg tagPat a v : Str) (w : Str)
    (hseg : seg = a ++ tagPat ++ (v ++ soh :: w))
    (hfirst : ∀ j, j < a.length → matchesAt tagPat (seg.drop j) = false)
    (hv : soh ∉ v) : extractSingleFieldValue seg tagPat = v := by
  have hfirstIdx : strIndex seg tagPat = some a.length := by
    apply strIndex_eq_some_of
    · rw [hseg, List.append_assoc, List.drop_left]
      exact (matchesAt_iff_exists _ _).mpr ⟨v ++ soh :: w, rfl⟩
    · exact hfirst
  unfold extractSingleFieldValue
  rw [hfirstIdx]
  have hdrop : seg.drop (a.length + tagPat.length) = v ++ soh :: w := by
    rw [hseg, ← List.length_append a tagPat]
    exact List.drop_left _ _
  simp only [hdrop]
  rw [strIndex_single_after_clean hv]
  simp only [List.take_left]

theorem extract_first_tail (seg tagPat a b : Str)
    (hseg : seg = a ++ tagPat ++ b)
    (hfirst : ∀ j, j < a.length → matchesAt tagPat (seg.drop j) = false)
    (hb : soh ∉ b) : extractSingleFieldValue seg tagPat = b := by
  have hfirstIdx : strIndex seg tagPat = some a.length := by
    apply strIndex_eq_some_of
    · rw [hseg, List.append_assoc, List.drop_left]
      exact (matchesAt_iff_exists _ _).mpr ⟨b, rfl⟩
    · exact hfirst
  unfold extractSingleFieldValue
  rw [hfirstIdx]
  have hdrop : seg.drop (a.length + tagPat.length) = b := by
    rw [hseg, ← List.length_append a tagPat]
    exact List.drop_left _ _
  simp only [hdrop]
  rw [strIndex_single_none hb]

/-- C4: `extractSingleFieldValue` returns the empty string when the tag prefix
does not occur; when the segment's first occurrence of the prefix is followed
by a value `v` terminated by SOH, it returns `v`; when the first occurrence's
value runs to the end of the segment with no SOH, it returns that whole
remainder. -/
theorem extractSingleFieldValueSpec (seg tagPat : Str) :
    ((∀ j, j ≤ seg.length → matchesAt tagPat (seg.drop j) = false) →
      extractSingleFieldValue seg tagPat = []) ∧
    (∀ a v w, seg = a ++ tagPat ++ (v ++ soh :: w) →
      (∀ j, j < a.length → matchesAt tagPat (seg.drop j) = false) →
      soh ∉ v →
      extractSingleFieldValue seg tagPat = v) ∧
    (∀ a b, seg = a ++ tagPat ++ b →
      (∀ j, j < a.length → matchesAt tagPat (seg.drop j) = false) →
      soh ∉ b →
      extractSingleFieldValue seg tagPat = b) :=
  ⟨extract_absent seg tagPat,
   fun a v w h1 h2 h3 => extract_first_value seg tagPat a v w h1 h2 h3,
   fun a b h1 h2 h3 => extract_first_tail seg tagPat a b h1 h2 h3⟩

/-- Witness for C4: in `"x269=z\x01270=50000.00\x01271=1.5\x01"`, prefix
`"270="` has its first occurrence after `"x269=z\x01"`, and the extracted
value is `"50000.00"`; prefix `"271="`'s value runs into the final SOH; the
prefix `"272="` is absent. -/
theorem extractSingleFieldValueSpec_witness :
    ((∀ j, j < ("x269=z\x01".toList).length →
        matchesAt "270=".toList ("x269=z\x01270=50000.00\x01271=1.5".toList.drop j)
          = false) ∧
      soh ∉ "50000.00".toList) ∧
    extractSingleFieldValue "x269=z\x01270=50000.00\x01271=1.5".toList "270=".toList =
      "50000.00".toList ∧
    ((∀ j, j ≤ ("x269=z\x01270=50000.00\x01271=1.5".toList).length →
        matchesAt "272=".toList ("x269=z\x01270=50000.00\x01271=1.5".toList.drop j)
          = false)) ∧
    extractSingleFieldValue "x269=z\x01270=50000.00\x01271=1.5".toList "272=".toList = [] :=
  ⟨⟨by decide, by decide⟩,
   (extractSingleFieldValueSpec "x269=z\x01270=50000.00\x01271=1.5".toList
       "270=".toList).2.1 "x269=z\x01".toList "50000.00".toList "271=1.5".toList
     (by decide) (by decide) (by decide),
   by decide,
   (extractSingleFieldValueSpec "x269=z\x01270=50000.00\x01271=1.5".toList
       "272=".toList).1 (by decide)⟩

/-! ### Boundary-locator lemmas (C6) -/

/-- Two occurrences of `"269="` cannot overlap: the marker has no non-trivial
border. -/
theorem mdMarker_no_overlap {l : Str} {p q : Nat}
    (hp : matchesAt mdMarker (l.drop p) = true)
    (hq : matchesAt mdMarker (l.drop q) = true) (hlt : p < q) : p + 4 ≤ q := by
  by_contra hcon
  have hd : q - p = 1 ∨ q - p = 2 ∨ q - p = 3 := by omega
  obtain ⟨v, hv⟩ := (matchesAt_iff_exists _ _).mp hp
  have hdropq : l.drop q = (l.drop p).drop (q - p) := by
    rw [List.drop_drop]
    congr 1
    omega
  rw [hdropq, hv] at hq
  have hsplit : ∀ d, d ≤ mdMarker.length →
      (mdMarker ++ v).drop d = mdMarker.drop d ++ v := fun d hd' => drop_append_of_le hd'
  rcases hd with h1 | h2 | h3
  · rw [h1, hsplit 1 (by decide)] at hq
    rw [show mdMarker.drop 1 = "69=".toList from rfl] at hq
    simp [matchesAt, mdMarker] at hq
  · rw [h2, hsplit 2 (by decide)] at hq
    rw [show mdMarker.drop 2 = "9=".toList from rfl] at hq
    simp [matchesAt, mdMarker] at hq
  · rw [h3, hsplit 3 (by decide)] at hq
    rw [show mdMarker.drop 3 = "=".toList from rfl] at hq
    simp [matchesAt, mdMarker] at hq

theorem collect_mem : ∀ (n : Nat) (s : Str), s.length ≤ n → ∀ (base j : Nat),
    (j ∈ collectEntryStarts s base ↔
      base ≤ j ∧ matchesAt mdMarker (s.drop (j - base)) = true) := by
  intro n
  induction n with
  | zero =>
      intro s hs base j
      have hnil : s = [] := List.eq_nil_of_length_eq_zero (by omega)
      subst hnil
      rw [collectEntryStarts]
      simp only [strIndex, if_neg (show ¬mdMarker = [] by decide)]
      simp [List.drop_nil, matchesAt, mdMarker]
  | succ n ih =>
      intro s hs base j
      rw [collectEntryStarts]
      cases hidx : strIndex s mdMarker with
      | none =>
          have hno := strIndex_none s mdMarker hidx
          simp [hno (j - base)]
      | some pos =>
          obtain ⟨hocc, hmin⟩ := strIndex_some s mdMarker pos hidx
          have hlen : pos + 4 ≤ s.length := by
            have := matchesAt_length hocc
            rw [List.length_drop] at this
            have h4 : mdMarker.length = 4 := rfl
            omega
          simp only [List.mem_cons]
          rw [ih (s.drop (pos + 4)) (by rw [List.length_drop]; omega) (base + pos + 4) j]
          constructor
          · rintro (rfl | ⟨hle, hm⟩)
            · exact ⟨by omega, by rwa [show base + pos - base = pos by omega]⟩
            · refine ⟨by omega, ?_⟩
              rw [List.drop_drop] at hm
              rwa [show pos + 4 + (j - (base + pos + 4)) = j - base by omega] at hm
          · rintro ⟨hle, hm⟩
            by_cases hd : j - base = pos
            · left; omega
            · right
              have hdge : pos + 4 ≤ j - base := by
                rcases Nat.lt_or_ge (j - base) pos with hlt | hge
                · rw [hmin _ hlt] at hm
                  exact absurd hm (by simp)
                · exact mdMarker_no_overlap hocc hm (by omega)
              refine ⟨by omega, ?_⟩
              rw [List.drop_drop]
              rwa [show pos + 4 + (j - (base + pos + 4)) = j - base by omega]

theorem collect_bounds : ∀ (n : Nat) (s : Str), s.length ≤ n → ∀ (base : Nat),
    ∀ j ∈ collectEntryStarts s base, base ≤ j := by
  intro n
  induction n with
  | zero =>
      intro s hs base j hj
      have hnil : s = [] := List.eq_nil_of_length_eq_zero (by omega)
      subst hnil
      rw [collectEntryStarts] at hj
      simp [strIndex, mdMarker] at hj
  | succ n ih =>
      intro s hs base j hj
      rw [collectEntryStarts] at hj
      cases hidx : strIndex s mdMarker with
      | none => rw [hidx] at hj; simp at hj
      | some pos =>
          rw [hidx] at hj
          obtain ⟨hocc, _⟩ := strIndex_some s mdMarker pos hidx
          have hlen : pos + 4 ≤ s.length := by
            have := matchesAt_length hocc
            rw [List.length_drop] at this
            have h4 : mdMarker.length = 4 := rfl
            omega
          rcases List.mem_cons.mp hj with rfl | htail
          · omega
          · have := ih (s.drop (pos + 4)) (by rw [List.length_drop]; omega)
              (base + pos + 4) j htail
            omega

theorem collect_sorted : ∀ (n : Nat) (s : Str), s.length ≤ n → ∀ (base : Nat),
    List.Pairwise (· < ·) (collectEntryStarts s base) := by
  intro n
  induction n with
  | zero =>
      intro s hs base
      have hnil : s = [] := List.eq_nil_of_length_eq_zero (by omega)
      subst hnil
      rw [collectEntryStarts]
      simp only [strIndex, if_neg (show ¬mdMarker = [] by decide)]
      exact List.Pairwise.nil
  | succ n ih =>
      intro s hs base
      rw [collectEntryStarts]
      cases hidx : strIndex s mdMarker with
      | none => exact List.Pairwise.nil
      | some pos =>
          obtain ⟨hocc, _⟩ := strIndex_some s mdMarker pos hidx
          have hlen : pos + 4 ≤ s.length := by
            have := matchesAt_length hocc
            rw [List.length_drop] at this
            have h4 : mdMarker.length = 4 := rfl
            omega
          refine List.Pairwise.cons ?_ (ih (s.drop (pos + 4))
            (by rw [List.length_drop]; omega) (base + pos + 4))
          intro j hj
          have := collect_bounds (s.drop (pos + 4)).length _ (le_refl _) _ j hj
          omega

theorem countOccur_ne_zero_of_some {s pat : Str} {i : Nat} (hp : ¬pat = [])
    (h : strIndex s pat = some i) : countOccur pat s ≠ 0 := by
  rw [countOccur, dif_neg hp]
  split
  · rename_i heq
    rw [h] at heq
    exact absurd heq (by simp)
  · omega

/-- C6: `findEntryBoundaries` returns a strictly increasing list of offsets
containing exactly the positions where `"269="` occurs in the message, and the
empty result for a message with zero occurrences. -/
theorem findEntryBoundariesSpec (rawMsg : Str) :
    List.Pairwise (· < ·) (findEntryBoundaries rawMsg) ∧
    (∀ j, j ∈ findEntryBoundaries rawMsg ↔ matchesAt mdMarker (rawMsg.drop j) = true) ∧
    ((∀ j, matchesAt mdMarker (rawMsg.drop j) = false) → findEntryBoundaries rawMsg = []) := by
  have hmain : ∀ j, j ∈ findEntryBoundaries rawMsg ↔
      matchesAt mdMarker (rawMsg.drop j) = true := by
    intro j
    unfold findEntryBoundaries
    by_cases hc : countOccur mdMarker rawMsg = 0
    · rw [if_pos hc]
      have hnone : strIndex rawMsg mdMarker = none := by
        cases hx : strIndex rawMsg mdMarker with
        | none => rfl
        | some k => exact absurd hc (countOccur_ne_zero_of_some (by decide) hx)
      have hno := strIndex_none rawMsg mdMarker hnone
      simp [hno j]
    · rw [if_neg hc]
      rw [collect_mem rawMsg.length rawMsg (le_refl _) 0 j]
      simp
  refine ⟨?_, hmain, ?_⟩
  · unfold findEntryBoundaries
    by_cases hc : countOccur mdMarker rawMsg = 0
    · rw [if_pos hc]; exact List.Pairwise.nil
    · rw [if_neg hc]
      exact collect_sorted rawMsg.length rawMsg (le_refl _) 0
  · intro habsent
    rw [List.eq_nil_iff_forall_not_mem]
    intro j hj
    rw [hmain j, habsent j] at hj
    exact absurd hj (by simp)

/-- Witness for C6: a marker-free message yields no offsets, and a two-entry
message yields exactly the offsets of its two `"269="` markers. -/
theorem findEntryBoundariesSpec_witness :
    (∀ j, matchesAt mdMarker ("8=FIX\x0135=W".toList.drop j) = false) ∧
    findEntryBoundaries "8=FIX\x0135=W".toList = [] ∧
    findEntryBoundaries "8=FIX\x01269=0\x01269=1\x01".toList = [6, 12] ∧
    List.Pairwise (· < ·) (findEntryBoundaries "8=FIX\x01269=0\x01269=1\x01".toList) := by
  have habs : ∀ j, matchesAt mdMarker ("8=FIX\x0135=W".toList.drop j) = false := by
    have hb : ∀ j, j < 11 → matchesAt mdMarker ("8=FIX\x0135=W".toList.drop j) = false := by
      decide
    intro j
    rcases Nat.lt_or_ge j 11 with h | h
    · exact hb j h
    · rw [List.drop_eq_nil_of_le (le_trans (by decide) h)]
      decide
  refine ⟨habs, (findEntryBoundariesSpec "8=FIX\x0135=W".toList).2.2 habs, ?_, ?_⟩
  · simp [findEntryBoundaries, countOccur, collectEntryStarts, strIndex, matchesAt, mdMarker,
      soh]
  · rw [show findEntryBoundaries "8=FIX\x01269=0\x01269=1\x01".toList = [6, 12] by
      simp [findEntryBoundaries, countOccur, collectEntryStarts, strIndex, matchesAt, mdMarker,
        soh]]
    simp

/-! ### Single-pass parser on rendered segments (C3 groundwork, fast side) -/

theorem findCharIdx_append_cons (c : Char) : ∀ (a b : Str), c ∉ a →
    findCharIdx c (a ++ c :: b) = some a.length := by
  intro a
  induction a with
  | nil => intro b _; simp [findCharIdx]
  | cons x a' ih =>
      intro b hc
      have hx : ¬x = c := fun h => hc (by rw [← h]; exact List.mem_cons_self x a')
      rw [List.cons_append, findCharIdx, if_neg hx,
        ih b (fun hm => hc (List.mem_cons_of_mem _ hm))]
      rfl

theorem parseLoop_nil (tr : Trade) : parseLoop tr [] = tr := by
  rw [parseLoop]
  split
  · rfl
  · rename_i eqIdx heq
    simp [findCharIdx] at heq

theorem parseLoop_field (tr : Trade) (tag value rest : Str)
    (htag : '=' ∉ tag) (hval : soh ∉ value) :
    parseLoop tr (tag ++ '=' :: (value ++ soh :: rest)) =
      parseLoop (applyTag tr tag value) rest := by
  have h1 : findCharIdx '=' (tag ++ '=' :: (value ++ soh :: rest)) = some tag.length :=
    findCharIdx_append_cons '=' tag _ htag
  have htake : (tag ++ '=' :: (value ++ soh :: rest)).take tag.length = tag :=
    List.take_left _ _
  have hdrop : (tag ++ '=' :: (value ++ soh :: rest)).drop (tag.length + 1)
      = value ++ soh :: rest := by
    rw [show tag ++ '=' :: (value ++ soh :: rest)
        = (tag ++ ['=']) ++ (value ++ soh :: rest) by simp]
    rw [show tag.length + 1 = (tag ++ ['=']).length by simp]
    exact List.drop_left _ _
  have h2 : findCharIdx soh (value ++ soh :: rest) = some value.length :=
    findCharIdx_append_cons soh value rest hval
  have htake2 : (value ++ soh :: rest).take value.length = value := List.take_left _ _
  have hdrop2 : (value ++ soh :: rest).drop (value.length + 1) = rest := by
    rw [show value ++ soh :: rest = (value ++ [soh]) ++ rest by simp]
    rw [show value.length + 1 = (value ++ [soh]).length by simp]
    exact List.drop_left _ _
  rw [parseLoop]
  split
  · rename_i heq
    rw [h1] at heq
    exact absurd heq (by simp)
  · rename_i eqIdx heq
    rw [h1, Option.some_inj] at heq
    subst heq
    simp only [htake, hdrop]
    split
    · rename_i heq2
      rw [h2] at heq2
      exact absurd heq2 (by simp)
    · rename_i sohIdx heq2
      rw [h2, Option.some_inj] at heq2
      subst heq2
      rw [htake2, hdrop2]

theorem renderFields_cons (f : Str × Str) (fs : List (Str × Str)) :
    renderFields (f :: fs) = f.1 ++ '=' :: (f.2 ++ soh :: renderFields fs) := by
  simp [renderFields, renderField]

theorem parseLoop_renderFields : ∀ (fs : List (Str × Str)) (tr : Trade),
    (∀ f ∈ fs, '=' ∉ f.1 ∧ soh ∉ f.2) →
    parseLoop tr (renderFields fs) = fs.foldl (fun a f => applyTag a f.1 f.2) tr := by
  intro fs
  induction fs with
  | nil =>
      intro tr _
      rw [show renderFields [] = ([] : Str) from rfl]
      exact parseLoop_nil tr
  | cons f fs ih =>
      intro tr hc
      have hf := hc f (List.mem_cons_self f fs)
      rw [renderFields_cons, parseLoop_field tr f.1 f.2 (renderFields fs) hf.1 hf.2,
        ih _ (fun g hg => hc g (List.mem_cons_of_mem f hg)), List.foldl_cons]

theorem applyTag_EntryType (tr : Trade) (tag v : Str) :
    (applyTag tr tag v).EntryType = if tag = "269".toList then v else tr.EntryType := by
  unfold applyTag
  split_ifs <;> first | rfl | simp_all

theorem applyTag_Price (tr : Trade) (tag v : Str) :
    (applyTag tr tag v).Price = if tag = "270".toList then v else tr.Price := by
  unfold applyTag
  split_ifs <;> first | rfl | simp_all

theorem applyTag_Size (tr : Trade) (tag v : Str) :
    (applyTag tr tag v).Size = if tag = "271".toList then v else tr.Size := by
  unfold applyTag
  split_ifs <;> first | rfl | simp_all

theorem applyTag_Time (tr : Trade) (tag v : Str) :
    (applyTag tr tag v).Time = if tag = "273".toList then v else tr.Time := by
  unfold applyTag
  split_ifs <;> first | rfl | simp_all

theorem applyTag_Position (tr : Trade) (tag v : Str) :
    (applyTag tr tag v).Position = if tag = "290".toList then v else tr.Position := by
  unfold applyTag
  split_ifs <;> first | rfl | simp_all

theorem applyTag_Aggressor (tr : Trade) (tag v : Str) :
    (applyTag tr tag v).Aggressor =
      if tag = "2446".toList then getAggressorSideDesc v else tr.Aggressor := by
  unfold applyTag
  split_ifs <;> first | rfl | simp_all

theorem foldl_applyTag_tagged (π : Trade → Str) (t : Str) (g : Str → Str)
    (hπ : ∀ tr tag v, π (applyTag tr tag v) = if tag = t then g v else π tr) :
    ∀ (fs : List (Str × Str)) (tr : Trade),
      π (fs.foldl (fun a f => applyTag a f.1 f.2) tr) =
        (match lastTagVal t fs with | some v => g v | none => π tr) := by
  intro fs
  induction fs with
  | nil => intro tr; rfl
  | cons f fs ih =>
      intro tr
      rw [List.foldl_cons, ih (applyTag tr f.1 f.2)]
      cases hlv : lastTagVal t fs with
      | some v => simp only [lastTagVal, hlv]
      | none =>
          simp only [lastTagVal, hlv, hπ]
          by_cases hf : f.1 = t
          · simp [hf]
          · simp [hf]

theorem foldl_applyTag_frame {α : Type} (π : Trade → α)
    (hπ : ∀ tr tag v, π (applyTag tr tag v) = π tr) :
    ∀ (fs : List (Str × Str)) (tr : Trade),
      π (fs.foldl (fun a f => applyTag a f.1 f.2) tr) = π tr := by
  intro fs
  induction fs with
  | nil => intro tr; rfl
  | cons f fs ih =>
      intro tr
      rw [List.foldl_cons, ih (applyTag tr f.1 f.2), hπ]

theorem applyTag_frame (tr : Trade) (tag v : Str) :
    (applyTag tr tag v).Timestamp = tr.Timestamp ∧
    (applyTag tr tag v).Symbol = tr.Symbol ∧
    (applyTag tr tag v).MdReqId = tr.MdReqId ∧
    (applyTag tr tag v).SeqNum = tr.SeqNum ∧
    (applyTag tr tag v).IsSnapshot = tr.IsSnapshot ∧
    (applyTag tr tag v).IsUpdate = tr.IsUpdate := by
  unfold applyTag
  split_ifs <;> exact ⟨rfl, rfl, rfl, rfl, rfl, rfl⟩

theorem lastTagVal_none_of_filter_nil (t : Str) : ∀ fs : List (Str × Str),
    fs.filter (fun f => f.1 = t) = [] → lastTagVal t fs = none := by
  intro fs
  induction fs with
  | nil => intro _; rfl
  | cons f fs ih =>
      intro h
      rw [List.filter_cons] at h
      by_cases hf : f.1 = t
      · rw [if_pos (by simp [hf])] at h
        exact absurd h (by simp)
      · rw [if_neg (by simp [hf])] at h
        simp only [lastTagVal, ih h]
        rw [if_neg hf]

theorem lastTagVal_eq_firstTagVal (t : Str) : ∀ fs : List (Str × Str),
    (fs.filter (fun f => f.1 = t)).length ≤ 1 → lastTagVal t fs = firstTagVal t fs := by
  intro fs
  induction fs with
  | nil => intro _; rfl
  | cons f fs ih =>
      intro h
      rw [List.filter_cons] at h
      by_cases hf : f.1 = t
      · rw [if_pos (by simp [hf]), List.length_cons] at h
        have hnil : fs.filter (fun f => f.1 = t) = [] :=
          List.eq_nil_of_length_eq_zero (by omega)
        simp only [lastTagVal, firstTagVal, lastTagVal_none_of_filter_nil t fs hnil,
          if_pos hf]
      · rw [if_neg (by simp [hf])] at h
        simp only [lastTagVal, firstTagVal, ih h, if_neg hf]
        cases firstTagVal t fs <;> rfl

theorem fast_canon (fs : List (Str × Str)) (symbol mdReqId : Str) (isSnapshot : Bool)
    (seqNum : Str) (entryIndex : Nat) (timestamp : Nat)
    (hclean : ∀ f ∈ fs, '=' ∉ f.1 ∧ soh ∉ f.2)
    (honce : ∀ t ∈ knownTags, (fs.filter (fun f => f.1 = t)).length ≤ 1) :
    clearStamp (parseTradeFromSegmentFast (renderFields fs) symbol mdReqId isSnapshot
        seqNum entryIndex timestamp) =
      canonParse fs symbol mdReqId isSnapshot seqNum entryIndex := by
  simp only [parseTradeFromSegmentFast]
  rw [parseLoop_renderFields fs _ hclean]
  set T := fs.foldl (fun a f => applyTag a f.1 f.2)
    (initTrade symbol mdReqId isSnapshot seqNum timestamp) with hT
  have hET : T.EntryType = tagVal "269".toList fs := by
    rw [hT, foldl_applyTag_tagged Trade.EntryType "269".toList (fun v => v)
        applyTag_EntryType fs (initTrade symbol mdReqId isSnapshot seqNum timestamp),
      lastTagVal_eq_firstTagVal "269".toList fs (honce _ (by simp [knownTags])), tagVal]
    cases firstTagVal "269".toList fs <;> rfl
  have hPrice : T.Price = tagVal "270".toList fs := by
    rw [hT, foldl_applyTag_tagged Trade.Price "270".toList (fun v => v)
        applyTag_Price fs (initTrade symbol mdReqId isSnapshot seqNum timestamp),
      lastTagVal_eq_firstTagVal "270".toList fs (honce _ (by simp [knownTags])), tagVal]
    cases firstTagVal "270".toList fs <;> rfl
  have hSize : T.Size = tagVal "271".toList fs := by
    rw [hT, foldl_applyTag_tagged Trade.Size "271".toList (fun v => v)
        applyTag_Size fs (initTrade symbol mdReqId isSnapshot seqNum timestamp),
      lastTagVal_eq_firstTagVal "271".toList fs (honce _ (by simp [knownTags])), tagVal]
    cases firstTagVal "271".toList fs <;> rfl
  have hTime : T.Time = tagVal "273".toList fs := by
    rw [hT, foldl_applyTag_tagged Trade.Time "273".toList (fun v => v)
        applyTag_Time fs (initTrade symbol mdReqId isSnapshot seqNum timestamp),
      lastTagVal_eq_firstTagVal "273".toList fs (honce _ (by simp [knownTags])), tagVal]
    cases firstTagVal "273".toList fs <;> rfl
  have hPos : T.Position = tagVal "290".toList fs := by
    rw [hT, foldl_applyTag_tagged Trade.Position "290".toList (fun v => v)
        applyTag_Position fs (initTrade symbol mdReqId isSnapshot seqNum timestamp),
      lastTagVal_eq_firstTagVal "290".toList fs (honce _ (by simp [knownTags])), tagVal]
    cases firstTagVal "290".toList fs <;> rfl
  have hAggr : T.Aggressor =
      (match firstTagVal "2446".toList fs with
       | some v => getAggressorSideDesc v
       | none => []) := by
    rw [hT, foldl_applyTag_tagged Trade.Aggressor "2446".toList getAggressorSideDesc
        applyTag_Aggressor fs (initTrade symbol mdReqId isSnapshot seqNum timestamp),
      lastTagVal_eq_firstTagVal "2446".toList fs (honce _ (by simp [knownTags]))]
    cases firstTagVal "2446".toList fs <;> rfl
  have hTs : T.Timestamp = timestamp := by
    rw [hT, foldl_applyTag_frame Trade.Timestamp
      (fun tr tag v => (applyTag_frame tr tag v).1) fs _]
    rfl
  have hSym : T.Symbol = symbol := by
    rw [hT, foldl_applyTag_frame Trade.Symbol
      (fun tr tag v => (applyTag_frame tr tag v).2.1) fs _]
    rfl
  have hMd : T.MdReqId = mdReqId := by
    rw [hT, foldl_applyTag_frame Trade.MdReqId
      (fun tr tag v => (applyTag_frame tr tag v).2.2.1) fs _]
    rfl
  have hSeq : T.SeqNum = seqNum := by
    rw [hT, foldl_applyTag_frame Trade.SeqNum
      (fun tr tag v => (applyTag_frame tr tag v).2.2.2.1) fs _]
    rfl
  have hSnap : T.IsSnapshot = isSnapshot := by
    rw [hT, foldl_applyTag_frame Trade.IsSnapshot
      (fun tr tag v => (applyTag_frame tr tag v).2.2.2.2.1) fs _]
    rfl
  have hUpd : T.IsUpdate = !isSnapshot := by
    rw [hT, foldl_applyTag_frame Trade.IsUpdate
      (fun tr tag v => (applyTag_frame tr tag v).2.2.2.2.2) fs _]
    rfl
  by_cases hcond : T.Position = [] ∧ (T.EntryType = "0".toList ∨ T.EntryType = "1".toList)
  · rw [if_pos hcond]
    have hp0 : tagVal "290".toList fs = [] := by rw [← hPos]; exact hcond.1
    have he0 : tagVal "269".toList fs = "0".toList ∨ tagVal "269".toList fs = "1".toList := by
      rw [← hET]; exact hcond.2
    simp only [clearStamp, canonParse, if_pos hp0, if_pos he0, Trade.mk.injEq]
    exact ⟨trivial, hSym, hPrice, hSize, hTime, hAggr, hMd, hET, trivial, hSeq, hSnap, hUpd⟩
  · rw [if_neg hcond]
    by_cases hp0 : tagVal "290".toList fs = []
    · have het : ¬(T.EntryType = "0".toList ∨ T.EntryType = "1".toList) := by
        intro hor
        exact hcond ⟨by rw [hPos]; exact hp0, hor⟩
      have he0 : ¬(tagVal "269".toList fs = "0".toList ∨
          tagVal "269".toList fs = "1".toList) := by
        rw [← hET]; exact het
      simp only [clearStamp, canonParse, if_pos hp0, if_neg he0, Trade.mk.injEq]
      exact ⟨trivial, hSym, hPrice, hSize, hTime, hAggr, hMd, hET, by rw [hPos, hp0],
        hSeq, hSnap, hUpd⟩
    · have he0 : ¬tagVal "290".toList fs = [] := hp0
      simp only [clearStamp, canonParse, if_neg he0, Trade.mk.injEq]
      exact ⟨trivial, hSym, hPrice, hSize, hTime, hAggr, hMd, hET, hPos, hSeq, hSnap, hUpd⟩

/-! ### Multi-pass parser on rendered segments (C3 groundwork, slow side) -/

theorem drop_append_left {α : Type} {l₁ l₂ : List α} {n : Nat} (h : l₁.length ≤ n) :
    (l₁ ++ l₂).drop n = l₂.drop (n - l₁.length) := by
  rw [List.drop_append_eq_append_drop, List.drop_eq_nil_of_le h, List.nil_append]

theorem extract_append_skip (l₁ l₂ pat : Str) (hpne : pat ≠ [])
    (hno : ∀ j, j < l₁.length → matchesAt pat ((l₁ ++ l₂).drop j) = false) :
    extractSingleFieldValue (l₁ ++ l₂) pat = extractSingleFieldValue l₂ pat := by
  cases hs2 : strIndex l₂ pat with
  | none =>
      have hnone : strIndex (l₁ ++ l₂) pat = none := by
        cases hx : strIndex (l₁ ++ l₂) pat with
        | none => rfl
        | some k =>
            obtain ⟨hocc, _⟩ := strIndex_some _ _ _ hx
            by_cases hk : k < l₁.length
            · rw [hno k hk] at hocc
              exact absurd hocc (by simp)
            · rw [drop_append_left (by omega)] at hocc
              rw [strIndex_none l₂ pat hs2 (k - l₁.length)] at hocc
              exact absurd hocc (by simp)
      unfold extractSingleFieldValue
      rw [hnone, hs2]
  | some i =>
      obtain ⟨hocc2, hmin2⟩ := strIndex_some _ _ _ hs2
      have h1 : strIndex (l₁ ++ l₂) pat = some (l₁.length + i) := by
        apply strIndex_eq_some_of
        · rw [drop_append_left (by omega), Nat.add_sub_cancel_left]
          exact hocc2
        · intro j hj
          by_cases hjl : j < l₁.length
          · exact hno j hjl
          · rw [drop_append_left (by omega)]
            exact hmin2 (j - l₁.length) (by omega)
      unfold extractSingleFieldValue
      rw [h1, hs2]
      have hd : (l₁ ++ l₂).drop (l₁.length + i + pat.length) = l₂.drop (i + pat.length) := by
        rw [drop_append_left (by omega)]
        congr 1
        omega
      simp only [hd]

theorem no_tag_in_field (tag value R t : Str)
    (htag_eq : '=' ∉ tag) (hval_eq : '=' ∉ value) (hval_soh : soh ∉ value)
    (ht_eq : '=' ∉ t) (ht_soh : soh ∉ t) (hne : tag ≠ t)
    (hsfx : t.length ≤ tag.length → tag.drop (tag.length - t.length) = t → tag = t) :
    ∀ j, j < (renderField (tag, value)).length →
      matchesAt (t ++ ['=']) ((renderField (tag, value) ++ R).drop j) = false := by
  intro j hj
  cases hm : matchesAt (t ++ ['=']) ((renderField (tag, value) ++ R).drop j) with
  | false => rfl
  | true =>
      exfalso
      obtain ⟨vv, hvv⟩ := (matchesAt_iff_exists _ _).mp hm
      have hlenF : (renderField (tag, value)).length = tag.length + value.length + 2 := by
        simp [renderField]
        omega
      rw [show (t ++ ['=']) ++ vv = t ++ '=' :: vv by simp] at hvv
      by_cases hjtag : j ≤ tag.length
      · have hFR : renderField (tag, value) ++ R = tag ++ '=' :: (value ++ soh :: R) := by
          simp [renderField]
        rw [hFR, drop_append_of_le hjtag] at hvv
        have hfc1 : findCharIdx '=' (tag.drop j ++ '=' :: (value ++ soh :: R))
            = some (tag.drop j).length :=
          findCharIdx_append_cons '=' _ _ (fun hmem => htag_eq (List.mem_of_mem_drop hmem))
        rw [hvv, findCharIdx_append_cons '=' t vv ht_eq, Option.some_inj] at hfc1
        have hlen : t.length = tag.length - j := by
          rw [hfc1, List.length_drop]
        have hteq : tag.drop j = t := by
          have h3 : (tag.drop j ++ '=' :: (value ++ soh :: R)).take (tag.drop j).length
              = (t ++ '=' :: vv).take (tag.drop j).length := by rw [hvv]
          rw [List.take_left, ← hfc1, List.take_left] at h3
          exact h3
        have hj0 : tag.length - t.length = j := by omega
        exact hne (hsfx (by omega) (by rw [hj0]; exact hteq))
      · have hFR2 : renderField (tag, value) ++ R = (tag ++ ['=']) ++ (value ++ soh :: R) := by
          simp [renderField]
        rw [hFR2, drop_append_left (by simp; omega)] at hvv
        have hA : (tag ++ ['=']).length = tag.length + 1 := by simp
        rw [hA] at hvv
        have hj2le : j - (tag.length + 1) ≤ value.length := by omega
        rw [drop_append_of_le hj2le] at hvv
        by_cases hVt : (value.drop (j - (tag.length + 1))).length ≤ t.length
        · have hdropboth : ((value.drop (j - (tag.length + 1))) ++ soh :: R).drop
              (value.drop (j - (tag.length + 1))).length
              = (t ++ '=' :: vv).drop (value.drop (j - (tag.length + 1))).length := by
            rw [hvv]
          rw [List.drop_left, drop_append_of_le hVt] at hdropboth
          cases htd : t.drop (value.drop (j - (tag.length + 1))).length with
          | nil =>
              rw [htd, List.nil_append] at hdropboth
              injection hdropboth with h1 _
              exact absurd h1 (by decide)
          | cons c rest0 =>
              rw [htd, List.cons_append] at hdropboth
              injection hdropboth with h1 _
              apply ht_soh
              rw [h1]
              exact List.mem_of_mem_drop (htd ▸ List.mem_cons_self c rest0)
        · push_neg at hVt
          have hdropboth : ((value.drop (j - (tag.length + 1))) ++ soh :: R).drop t.length
              = (t ++ '=' :: vv).drop t.length := by
            rw [hvv]
          rw [drop_append_of_le (le_of_lt hVt), List.drop_left] at hdropboth
          cases hvd : (value.drop (j - (tag.length + 1))).drop t.length with
          | nil =>
              have h0 := congrArg List.length hvd
              rw [List.length_drop] at h0
              simp only [List.length_nil] at h0
              omega
          | cons c rest0 =>
              rw [hvd, List.cons_append] at hdropboth
              injection hdropboth with h1 _
              apply hval_eq
              rw [← h1]
              exact List.mem_of_mem_drop
                (List.mem_of_mem_drop (hvd ▸ List.mem_cons_self c rest0))

theorem extract_render (t : Str) (ht_eq : '=' ∉ t) (ht_soh : soh ∉ t) (htne : t ≠ []) :
    ∀ fs : List (Str × Str),
      (∀ f ∈ fs, '=' ∉ f.1 ∧ soh ∉ f.1 ∧ '=' ∉ f.2 ∧ soh ∉ f.2) →
      (∀ f ∈ fs, t.length ≤ f.1.length → f.1.drop (f.1.length - t.length) = t → f.1 = t) →
      extractSingleFieldValue (renderFields fs) (t ++ ['=']) = tagVal t fs := by
  intro fs
  induction fs with
  | nil =>
      intro _ _
      rw [show renderFields [] = ([] : Str) from rfl]
      unfold extractSingleFieldValue
      rw [show strIndex [] (t ++ ['=']) = none by
        rw [strIndex]
        exact if_neg (by simp)]
      rfl
  | cons f fs ih =>
      intro hclean hsfx
      have hf := hclean f (List.mem_cons_self f fs)
      by_cases hft : f.1 = t
      · have hseg : renderFields (f :: fs)
            = [] ++ (t ++ ['=']) ++ (f.2 ++ soh :: renderFields fs) := by
          rw [renderFields_cons, hft]
          simp
        rw [extract_first_value _ _ [] f.2 (renderFields fs) hseg
          (fun j hj => absurd hj (by simp)) hf.2.2.2]
        simp [tagVal, firstTagVal, hft]
      · have hnof := no_tag_in_field f.1 f.2 (renderFields fs) t hf.1 hf.2.2.1 hf.2.2.2
          ht_eq ht_soh hft (hsfx f (List.mem_cons_self f fs))
        have hsplit : renderFields (f :: fs) = renderField f ++ renderFields fs := by
          simp [renderFields]
        rw [hsplit,
          extract_append_skip (renderField f) (renderFields fs) (t ++ ['=']) (by simp) hnof,
          ih (fun g hg => hclean g (List.mem_cons_of_mem f hg))
            (fun g hg => hsfx g (List.mem_cons_of_mem f hg))]
        simp [tagVal, firstTagVal, hft]

theorem ite_ne_nil_self (x : Str) : (if x ≠ [] then x else []) = x := by
  by_cases h : x = [] <;> simp [h]

theorem slow_canon (fs : List (Str × Str)) (symbol mdReqId : Str) (isSnapshot : Bool)
    (seqNum : Str) (entryIndex : Nat) (timestamp : Nat) (hwf : wfFields fs) :
    clearStamp (parseTradeFromSegment (renderFields fs) symbol mdReqId isSnapshot
        seqNum entryIndex timestamp) =
      canonParse fs symbol mdReqId isSnapshot seqNum entryIndex := by
  obtain ⟨hclean, honce, hsfx⟩ := hwf
  have h269 : extractSingleFieldValue (renderFields fs) "269=".toList
      = tagVal "269".toList fs := by
    rw [show ("269=".toList : Str) = "269".toList ++ ['='] by simp]
    exact extract_render "269".toList (by decide) (by decide) (by decide) fs hclean
      (fun f hf => hsfx f hf "269".toList (by decide))
  have h270 : extractSingleFieldValue (renderFields fs) "270=".toList
      = tagVal "270".toList fs := by
    rw [show ("270=".toList : Str) = "270".toList ++ ['='] by simp]
    exact extract_render "270".toList (by decide) (by decide) (by decide) fs hclean
      (fun f hf => hsfx f hf "270".toList (by decide))
  have h271 : extractSingleFieldValue (renderFields fs) "271=".toList
      = tagVal "271".toList fs := by
    rw [show ("271=".toList : Str) = "271".toList ++ ['='] by simp]
    exact extract_render "271".toList (by decide) (by decide) (by decide) fs hclean
      (fun f hf => hsfx f hf "271".toList (by decide))
  have h273 : extractSingleFieldValue (renderFields fs) "273=".toList
      = tagVal "273".toList fs := by
    rw [show ("273=".toList : Str) = "273".toList ++ ['='] by simp]
    exact extract_render "273".toList (by decide) (by decide) (by decide) fs hclean
      (fun f hf => hsfx f hf "273".toList (by decide))
  have h290 : extractSingleFieldValue (renderFields fs) "290=".toList
      = tagVal "290".toList fs := by
    rw [show ("290=".toList : Str) = "290".toList ++ ['='] by simp]
    exact extract_render "290".toList (by decide) (by decide) (by decide) fs hclean
      (fun f hf => hsfx f hf "290".toList (by decide))
  have h2446 : extractSingleFieldValue (renderFields fs) "2446=".toList
      = tagVal "2446".toList fs := by
    rw [show ("2446=".toList : Str) = "2446".toList ++ ['='] by simp]
    exact extract_render "2446".toList (by decide) (by decide) (by decide) fs hclean
      (fun f hf => hsfx f hf "2446".toList (by decide))
  simp only [parseTradeFromSegment, h269, h270, h271, h273, h290, h2446]
  simp only [clearStamp, canonParse, Trade.mk.injEq,
    apply_ite Trade.Timestamp, apply_ite Trade.Symbol, apply_ite Trade.Price,
    apply_ite Trade.Size, apply_ite Trade.Time, apply_ite Trade.Aggressor,
    apply_ite Trade.MdReqId, apply_ite Trade.EntryType, apply_ite Trade.Position,
    apply_ite Trade.SeqNum, apply_ite Trade.IsSnapshot, apply_ite Trade.IsUpdate,
    initTrade, zeroTrade, ite_self, ite_ne_nil_self]
  refine ⟨trivial, trivial, trivial, trivial, trivial, ?_, trivial, trivial, ?_,
    trivial, trivial, trivial⟩
  · cases h : firstTagVal "2446".toList fs with
    | none =>
        simp only [tagVal, h]
        simp
    | some v =>
        simp only [tagVal, h]
        by_cases hv : v = []
        · subst hv
          decide
        · simp [hv]
  · by_cases h5 : tagVal "290".toList fs = [] <;> simp [h5]

/-- C3 (counterexample): on the segment `"x270=9"` the two parsers disagree.
The multi-pass reference parser searches for the raw pattern `"270="` anywhere
in the segment, so it matches inside the unknown tag `"x270"` and reads price
`"9"`, while the single-pass parser splits the segment at field boundaries,
sees the single unknown tag `"x270"`, and leaves the price empty.  Hence the
claimed equivalence on every segment fails. -/
theorem parserEquivalence_counterexample :
    (parseTradeFromSegment "x270=9".toList [] [] false [] 0 0).Price = "9".toList ∧
    (parseTradeFromSegmentFast "x270=9".toList [] [] false [] 0 0).Price = [] ∧
    clearStamp (parseTradeFromSegment "x270=9".toList [] [] false [] 0 0) ≠
      clearStamp (parseTradeFromSegmentFast "x270=9".toList [] [] false [] 0 0) := by
  have hslow : (parseTradeFromSegment "x270=9".toList [] [] false [] 0 0).Price
      = "9".toList := by decide
  have hfast : (parseTradeFromSegmentFast "x270=9".toList [] [] false [] 0 0).Price
      = [] := by
    simp [parseTradeFromSegmentFast, parseLoop, findCharIdx, applyTag, initTrade, zeroTrade,
      soh, getAggressorSideDesc]
  refine ⟨hslow, hfast, fun h => ?_⟩
  have hp := congrArg Trade.Price h
  simp only [clearStamp] at hp
  rw [hslow, hfast] at hp
  exact absurd hp (by decide)

/-- C3 (amended): restricted to segments assembled from a well-formed field
list — tags and values free of `=` and SOH, each recognised tag on at most one
field, and no recognised tag a proper suffix of any field's tag — the retained
multi-pass reference parser `parseTradeFromSegment` and the production
single-pass parser `parseTradeFromSegmentFast` return Trade records equal on
every field except Timestamp (here even under different clock readings).  The
unrestricted claim is refuted by `parserEquivalence_counterexample`. -/
theorem parserEquivalenceOnWellFormed (fs : List (Str × Str)) (symbol mdReqId : Str)
    (isSnapshot : Bool) (seqNum : Str) (entryIndex : Nat) (ts1 ts2 : Nat)
    (hwf : wfFields fs) :
    clearStamp (parseTradeFromSegment (renderFields fs) symbol mdReqId isSnapshot
        seqNum entryIndex ts1) =
      clearStamp (parseTradeFromSegmentFast (renderFields fs) symbol mdReqId isSnapshot
        seqNum entryIndex ts2) := by
  rw [slow_canon fs symbol mdReqId isSnapshot seqNum entryIndex ts1 hwf,
    fast_canon fs symbol mdReqId isSnapshot seqNum entryIndex ts2
      (fun f hf => ⟨(hwf.1 f hf).1, (hwf.1 f hf).2.2.2⟩) hwf.2.1]

/-- Witness for the amended C3 theorem on a concrete well-formed field list. -/
theorem parserEquivalenceOnWellFormed_witness :
    wfFields [("269".toList, "0".toList), ("270".toList, "49999.00".toList),
        ("271".toList, "1.0".toList), ("2446".toList, "1".toList)] ∧
    clearStamp (parseTradeFromSegment (renderFields [("269".toList, "0".toList),
        ("270".toList, "49999.00".toList), ("271".toList, "1.0".toList),
        ("2446".toList, "1".toList)]) "BTC".toList "req".toList true "5".toList 0 7) =
      clearStamp (parseTradeFromSegmentFast (renderFields [("269".toList, "0".toList),
        ("270".toList, "49999.00".toList), ("271".toList, "1.0".toList),
        ("2446".toList, "1".toList)]) "BTC".toList "req".toList true "5".toList 0 9) :=
  ⟨by decide,
   parserEquivalenceOnWellFormed
     [("269".toList, "0".toList), ("270".toList, "49999.00".toList),
      ("271".toList, "1.0".toList), ("2446".toList, "1".toList)]
     "BTC".toList "req".toList true "5".toList 0 7 9 (by decide)⟩

end PrimeFixMd
